import Mathlib

/-!
Verification of the frame-compositing core of the webp-to-mp4 converter
(`src/conversion-worker.js`, function `convert`).

The worker's pixel arithmetic is JavaScript number arithmetic, i.e. IEEE-754
binary64 ("double") with round-to-nearest, ties-to-even.  All values that occur
on the modelled paths are nonnegative and far inside the normal range
(magnitudes between 2^-9 and 2^18), so binary64 arithmetic there is exactly
"compute the rational result, then round it to 53 significant bits".  We embed
this exactly: values are unnormalised rationals `Dy` (integer numerator,
positive natural denominator, no gcd so that the kernel can evaluate them), and
`Dy.fl` rounds a rational to 53 significant binary digits, to nearest, ties to
even — precisely the binary64 rounding of the exact value.  `e - 52` shifts of
the significand cover every needed exponent; overflow and subnormals are
unreachable for the 8-bit channel inputs that occur.

The canvas is a flat RGBA byte buffer, as in the source (`Buffer.alloc`), and is
modelled as a `List Nat`; `List.set` is a no-op out of bounds exactly like a
store into a Node `Buffer`/`Uint8Array`, and out-of-bounds loads never influence
a stored byte on any path (stores of a pixel are all-or-nothing because both
the buffer length and every pixel base index are multiples of 4).
-/

namespace Webp

/-- Unnormalised rational number: `num / den` with `0 < den`.  Used so that all
arithmetic reduces in the kernel (no gcd normalisation). -/
structure Dy where
  num : Int
  den : Nat
  dpos : 0 < den

/-- Embed a natural number. -/
def Dy.ofNat (n : Nat) : Dy := ⟨n, 1, Nat.one_pos⟩

/-- Exact rational addition. -/
def Dy.add (a b : Dy) : Dy :=
  ⟨a.num * b.den + b.num * a.den, a.den * b.den, Nat.mul_pos a.dpos b.dpos⟩

/-- Exact rational multiplication. -/
def Dy.mul (a b : Dy) : Dy :=
  ⟨a.num * b.num, a.den * b.den, Nat.mul_pos a.dpos b.dpos⟩

/-- Exact rational division.  Only ever used with a positive divisor on the
modelled code paths (`/ 255`, and `/ outA` behind the source's `outA > 0`
guard); other divisors yield a dummy 0. -/
def Dy.div (a b : Dy) : Dy :=
  if h : 0 < b.num then
    ⟨a.num * b.den, a.den * b.num.toNat,
      Nat.mul_pos a.dpos (by omega)⟩
  else Dy.ofNat 0

/-- Comparison `a ≤ b`, by cross-multiplication (denominators are positive). -/
def Dy.le (a b : Dy) : Prop := a.num * b.den ≤ b.num * a.den

/-- Comparison `a < b`, by cross-multiplication (denominators are positive). -/
def Dy.lt (a b : Dy) : Prop := a.num * b.den < b.num * a.den

instance (a b : Dy) : Decidable (Dy.le a b) := by unfold Dy.le; infer_instance

instance (a b : Dy) : Decidable (Dy.lt a b) := by unfold Dy.lt; infer_instance

/-- Floor of a `Dy` (Euclidean division by the positive denominator). -/
def Dy.floor (a : Dy) : Int := Int.ediv a.num a.den

/-- Multiply by `2 ^ k` for `k : ℤ`. -/
def Dy.shift (a : Dy) (k : Int) : Dy :=
  if 0 ≤ k then ⟨a.num * (2 ^ k.toNat : Nat), a.den, a.dpos⟩
  else ⟨a.num, a.den * 2 ^ (-k).toNat,
    Nat.mul_pos a.dpos (Nat.pos_pow_of_pos _ (by omega))⟩

/-- Fuel-driven binary logarithm on naturals (structural recursion so that the
kernel can evaluate it; fuel `n` suffices for argument `n`). -/
def log2fuel : Nat → Nat → Nat
  | 0, _ => 0
  | fuel+1, n => if 2 ≤ n then log2fuel fuel (n / 2) + 1 else 0

/-- Smallest `m` with `1 ≤ q * 2 ^ m`, for `0 < q`, by fuel-driven search. -/
def invExpFuel : Nat → Dy → Nat
  | 0, _ => 0
  | fuel+1, q => if Dy.le (Dy.ofNat 1) q then 0 else invExpFuel fuel (Dy.shift q 1) + 1

/-- Binary exponent of a positive rational: the unique `e` with
`2 ^ e ≤ q < 2 ^ (e+1)`. -/
def Dy.exp (q : Dy) : Int :=
  if Dy.le (Dy.ofNat 1) q then (log2fuel (Int.toNat (Dy.floor q)) (Int.toNat (Dy.floor q)) : Int)
  else - (invExpFuel q.den q : Int)

/-- Round a rational to the nearest integer, ties to even. -/
def roundEven (s : Dy) : Int :=
  let f := Dy.floor s
  let r2 : Int := 2 * (s.num - f * s.den)
  if r2 < (s.den : Int) then f
  else if (s.den : Int) < r2 then f + 1
  else if f % 2 = 0 then f else f + 1

/-- Binary64 rounding of an exact nonnegative rational: round the significand
`q * 2 ^ (52 - e)` (a value in `[2^52, 2^53)`) to the nearest integer, ties to
even, and scale back.  This is exactly what every IEEE-754 double operation does
to its exact result in the normal range. -/
def Dy.fl (q : Dy) : Dy :=
  if q.num ≤ 0 then Dy.ofNat 0
  else
    let e := Dy.exp q
    Dy.shift ⟨roundEven (Dy.shift q (52 - e)), 1, Nat.one_pos⟩ (e - 52)

/-- The rational value represented by a `Dy` (proof-side semantics only). -/
def Dy.toRat (a : Dy) : ℚ := (a.num : ℚ) / (a.den : ℚ)

/-- `da * (255 - sa) / 255` as evaluated by the worker in doubles
(left-associated, one rounding per operation; `255 - sa` is exact). -/
def jsTerm (d da sa : Nat) : Dy :=
  Dy.fl (Dy.div (Dy.fl (Dy.mul (Dy.fl (Dy.mul (Dy.ofNat d) (Dy.ofNat da))) (Dy.ofNat (255 - sa)))) (Dy.ofNat 255))

/-- `outA = sa + da * (255 - sa) / 255` as evaluated by the worker in doubles. -/
def jsOutA (sa da : Nat) : Dy :=
  Dy.fl (Dy.add (Dy.ofNat sa) (Dy.fl (Dy.div (Dy.fl (Dy.mul (Dy.ofNat da) (Dy.ofNat (255 - sa)))) (Dy.ofNat 255))))

/-- `(sc * sa + dc * da * (255 - sa) / 255) / outA | 0` as evaluated by the
worker in doubles; the single final `| 0` truncates toward zero (the value is
nonnegative, so this is the floor, and `Int.toNat` is the identity on it). -/
def jsChan (sc dc sa da : Nat) (outA : Dy) : Nat :=
  Int.toNat (Dy.floor (Dy.fl (Dy.div (Dy.fl (Dy.add (Dy.fl (Dy.mul (Dy.ofNat sc) (Dy.ofNat sa))) (jsTerm dc da sa))) outA)))

/-- `outA | 0`, the stored alpha byte. -/
def jsAlpha (sa da : Nat) : Nat := Int.toNat (Dy.floor (jsOutA sa da))

/-- Metadata of one animation frame as read from `img.anim.frames[i]`
(`fmeta.x || 0` and `fmeta.y || 0` normalise a missing offset to 0, so the
offsets are plain naturals here). -/
structure FrameMeta where
  x : Nat
  y : Nat
  width : Nat
  height : Nat
  blend : Bool
  dispose : Bool
  delay : Nat

/-- One decoded frame: metadata plus the RGBA patch buffer returned by
`img.getFrameData(i)` (row-major, 4 bytes per pixel). -/
structure Frame where
  meta : FrameMeta
  rgba : List Nat

/-- An RGBA background color quadruple (`img.anim.bgColor` or the
`[255,255,255,255]` default). -/
def RGBA : Type := Nat × Nat × Nat × Nat

/-- `for (i = 0; i < n; i++) body`: iteration `0` first, `n-1` last. -/
def loopN (f : Nat → List Nat → List Nat) : Nat → List Nat → List Nat
  | 0, c => c
  | n+1, c => f n (loopN f n c)

/-- The four consecutive byte stores `canvas[di+0..3] = r,g,b,a`.  A store past
the end of a Node `Buffer` is silently dropped, exactly like `List.set` out of
bounds. -/
def writePixel4 (c : List Nat) (di r g b a : Nat) : List Nat :=
  (((c.set di r).set (di+1) g).set (di+2) b).set (di+3) a

/-- The per-pixel body of the `blend` branch of `convert`
(src/conversion-worker.js lines 76-101): opaque source overwrites, transparent
source is a no-op, otherwise Porter-Duff source-over evaluated in binary64 with
a final `| 0` truncation per stored byte, guarded by `outA > 0`. -/
def blendPixel (c : List Nat) (di sr sg sb sa : Nat) : List Nat :=
  if sa = 255 then
    writePixel4 c di sr sg sb 255
  else if sa = 0 then
    c
  else
    let da := c.getD (di+3) 0
    let dr := c.getD di 0
    let dg := c.getD (di+1) 0
    let db := c.getD (di+2) 0
    let outA := jsOutA sa da
    if Dy.lt (Dy.ofNat 0) outA then
      writePixel4 c di (jsChan sr dr sa da outA) (jsChan sg dg sa da outA)
        (jsChan sb db sa da outA) (jsAlpha sa da)
    else c

/-- Source base index of patch pixel `(x, y)`: `si = (y * fw + x) * 4`. -/
def frameSi (f : Frame) (y x : Nat) : Nat := (y * f.meta.width + x) * 4

/-- Destination base index of patch pixel `(x, y)`:
`di = ((y0 + y) * width + (x0 + x)) * 4` with the doubled offsets
`x0 = fmeta.x * 2`, `y0 = fmeta.y * 2`. -/
def frameDi (W : Nat) (f : Frame) (y x : Nat) : Nat :=
  ((f.meta.y * 2 + y) * W + (f.meta.x * 2 + x)) * 4

/-- The body of the per-pixel loop of `convert` for patch pixel `(x, y)`:
source index into the patch, destination index at the doubled offset, then
either the direct four-channel copy (`blend === false`) or `blendPixel`. -/
def framePixel (W : Nat) (f : Frame) (y x : Nat) (c : List Nat) : List Nat :=
  if f.meta.blend then
    blendPixel c (frameDi W f y x) (f.rgba.getD (frameSi f y x) 0)
      (f.rgba.getD (frameSi f y x + 1) 0) (f.rgba.getD (frameSi f y x + 2) 0)
      (f.rgba.getD (frameSi f y x + 3) 0)
  else
    writePixel4 c (frameDi W f y x) (f.rgba.getD (frameSi f y x) 0)
      (f.rgba.getD (frameSi f y x + 1) 0) (f.rgba.getD (frameSi f y x + 2) 0)
      (f.rgba.getD (frameSi f y x + 3) 0)

/-- The double pixel loop of `convert` compositing one frame's patch onto the
canvas (`for y in [0, fh) for x in [0, fw)`). -/
def compositeFrame (W : Nat) (f : Frame) (c : List Nat) : List Nat :=
  loopN (fun y cy => loopN (fun x cx => framePixel W f y x cx) f.meta.width cy)
    f.meta.height c

/-- The dispose loop of `convert` (lines 111-121): overwrite the patch's region
with the background color; `rowOff = (y0+y)*width*4 + x0*4`, `p = rowOff + x*4`. -/
def disposeRegion (W : Nat) (m : FrameMeta) (bg : RGBA) (c : List Nat) : List Nat :=
  loopN (fun y cy =>
    loopN (fun x cx =>
      writePixel4 cx ((m.y * 2 + y) * W * 4 + m.x * 2 * 4 + x * 4) bg.1 bg.2.1 bg.2.2.1 bg.2.2.2)
      m.width cy)
    m.height c

/-- `i.toString().padStart(5, '0')`. -/
def pad5 (i : Nat) : String :=
  let s := Nat.repr i
  String.mk (List.replicate (5 - s.length) '0') ++ s

/-- The artifact name `frame_${frameIndex}.png` of snapshot `i`. -/
def frameName (i : Nat) : String := "frame_" ++ pad5 i ++ ".png"

/-- One written snapshot artifact: its file name and the full-canvas pixel copy
(`png.data = Buffer.from(canvas)`). -/
structure Snapshot where
  name : String
  data : List Nat

/-- Canvas state after one full frame iteration: composite, then dispose-clear
the patch region if `dispose === true`.  (The snapshot is taken in between.) -/
def postFrame (W : Nat) (bg : RGBA) (f : Frame) (c : List Nat) : List Nat :=
  let c1 := compositeFrame W f c
  if f.meta.dispose then disposeRegion W f.meta bg c1 else c1

/-- The frame loop of `convert`: for each frame composite the patch, emit the
snapshot `frame_%05d.png` of the canvas, then apply the dispose clear, and
continue with the mutated canvas. -/
def runFrames (W : Nat) (bg : RGBA) (i0 : Nat) (c : List Nat) : List Frame → List Snapshot
  | [] => []
  | f :: rest =>
    let c1 := compositeFrame W f c
    ⟨frameName i0, c1⟩ ::
      runFrames W bg (i0 + 1) (if f.meta.dispose then disposeRegion W f.meta bg c1 else c1) rest

/-- Canvas state after processing a list of frames in order (compositing and
dispose clears applied). -/
def canvasAfter (W : Nat) (bg : RGBA) (c : List Nat) : List Frame → List Nat
  | [] => c
  | f :: rest => canvasAfter W bg (postFrame W bg f c) rest

/-- The initial canvas: `Buffer.alloc(width*height*4)` (zero-filled) followed by
the background fill loop writing `bg` at `i*4 + 0..3` for each pixel `i`. -/
def initCanvas (width height : Nat) (bg : RGBA) : List Nat :=
  loopN (fun i c => writePixel4 c (i * 4) bg.1 bg.2.1 bg.2.2.1 bg.2.2.2)
    (width * height) (List.replicate (width * height * 4) 0)

/-- `Math.round(q)` for an exact nonnegative rational `q`: nearest integer,
ties toward positive infinity, i.e. `⌊q + 1/2⌋`. -/
def mathRound (q : Dy) : Int := Dy.floor (Dy.add q ⟨1, 2, by omega⟩)

/-- The frame-rate derivation of `convert` (lines 131-135):
`avgDelay = img.anim.frames[0].delay || 100; fps = Math.round(1000 / avgDelay)`,
with `fps = 10` when there is no animation or no frame.  The division runs in
binary64. -/
def deriveFps (hasAnim : Bool) (frames : List FrameMeta) : Nat :=
  match hasAnim, frames with
  | true, fm :: _ =>
    let avgDelay := if fm.delay = 0 then 100 else fm.delay
    Int.toNat (mathRound (Dy.fl (Dy.div (Dy.ofNat 1000) (Dy.ofNat avgDelay))))
  | _, _ => 10

/-- Modelled from the spec: the claim C1 formula
`outA = sa + da*(255-sa)/255` with every division read as integer division
truncating toward zero. -/
def specOutA (sa da : Nat) : Nat := sa + da * (255 - sa) / 255

/-- Modelled from the spec: the claim C1 formula
`outC = (sc*sa + dc*da*(255-sa)/255) / outA` with every division read as
integer division truncating toward zero. -/
def specOutC (sc dc sa da : Nat) : Nat :=
  (sc * sa + dc * da * (255 - sa) / 255) / specOutA sa da

/-- Channel selector for a written RGBA quadruple. -/
def chan4 (r g b a : Nat) : Nat → Nat
  | 0 => r
  | 1 => g
  | 2 => b
  | _ => a

/-- The four byte values the `blend === true` branch leaves at a destination
pixel, as a function of the destination bytes `dr,dg,db,da` and source bytes
`sr,sg,sb,sa`. -/
def blendVals (dr dg db da sr sg sb sa : Nat) : Nat → Nat :=
  if sa = 255 then chan4 sr sg sb 255
  else if sa = 0 then chan4 dr dg db da
  else if Dy.lt (Dy.ofNat 0) (jsOutA sa da) then
    chan4 (jsChan sr dr sa da (jsOutA sa da)) (jsChan sg dg sa da (jsOutA sa da))
      (jsChan sb db sa da (jsOutA sa da)) (jsAlpha sa da)
  else chan4 dr dg db da

/-- Claim C2, stated: every patch pixel `(x, y)` takes effect exactly at the
flat index of canvas position `(2*ox + x, 2*oy + y)` — the doubled stored
offsets — and no byte outside the doubled region is modified. -/
def C2Prop (W : Nat) (f : Frame) (c : List Nat) : Prop :=
  (∀ y x k, y < f.meta.height → x < f.meta.width → k < 4 →
    (compositeFrame W f c).getD (((f.meta.y * 2 + y) * W + (f.meta.x * 2 + x)) * 4 + k) 0 =
      (framePixel W f y x c).getD (((f.meta.y * 2 + y) * W + (f.meta.x * 2 + x)) * 4 + k) 0) ∧
  (∀ u v k, u < W → k < 4 →
    ¬ (f.meta.x * 2 ≤ u ∧ u < f.meta.x * 2 + f.meta.width ∧
      f.meta.y * 2 ≤ v ∧ v < f.meta.y * 2 + f.meta.height) →
    (compositeFrame W f c).getD ((v * W + u) * 4 + k) 0 =
      c.getD ((v * W + u) * 4 + k) 0)

/-- Claim C3, stated: for a `dispose` frame the emitted snapshot is the
composited canvas from before the dispose clear, the canvas handed to the
following frames has every byte of the patch's doubled region overwritten with
the background color, and every byte outside that region unchanged. -/
def C3Prop (W : Nat) (bg : RGBA) (f : Frame) (c : List Nat) (i0 : Nat)
    (rest : List Frame) : Prop :=
  runFrames W bg i0 c (f :: rest) =
      ⟨frameName i0, compositeFrame W f c⟩ ::
        runFrames W bg (i0 + 1) (disposeRegion W f.meta bg (compositeFrame W f c)) rest ∧
  (∀ y x k, y < f.meta.height → x < f.meta.width → k < 4 →
    (disposeRegion W f.meta bg (compositeFrame W f c)).getD
        (((f.meta.y * 2 + y) * W + (f.meta.x * 2 + x)) * 4 + k) 0 =
      chan4 bg.1 bg.2.1 bg.2.2.1 bg.2.2.2 k) ∧
  (∀ u v k, u < W → k < 4 →
    ¬ (f.meta.x * 2 ≤ u ∧ u < f.meta.x * 2 + f.meta.width ∧
      f.meta.y * 2 ≤ v ∧ v < f.meta.y * 2 + f.meta.height) →
    (disposeRegion W f.meta bg (compositeFrame W f c)).getD ((v * W + u) * 4 + k) 0 =
      (compositeFrame W f c).getD ((v * W + u) * 4 + k) 0)

/-- Claim C6, stated: a `blend === false` frame copies all four channels of
every patch pixel verbatim onto the canvas at the doubled offsets. -/
def C6Prop (W : Nat) (f : Frame) (c : List Nat) : Prop :=
  ∀ y x k, y < f.meta.height → x < f.meta.width → k < 4 →
    (compositeFrame W f c).getD (((f.meta.y * 2 + y) * W + (f.meta.x * 2 + x)) * 4 + k) 0 =
      f.rgba.getD ((y * f.meta.width + x) * 4 + k) 0

/-- Claim C8 (amended), stated: the frame loop emits exactly one snapshot per
frame; snapshot `i` carries the canvas obtained by compositing frame `i` onto
the state left by frames `0..i-1` (dispose clears included), i.e. it is
produced only after patches `0..i` have been applied in order; and its artifact
name is `frame_` followed by the decimal index left-padded with zeros to at
least five digits. -/
def C8Prop (W : Nat) (bg : RGBA) (c : List Nat) (frames : List Frame) : Prop :=
  (runFrames W bg 0 c frames).length = frames.length ∧
  ∀ i (h : i < frames.length),
    (runFrames W bg 0 c frames)[i]? =
      some ⟨frameName i,
        compositeFrame W (frames.get ⟨i, h⟩) (canvasAfter W bg c (frames.take i))⟩

/-- Claim C9, stated: the derived frame rate is `Math.round(1000 / d)` with `d`
the first frame's delay, `0` replaced by the `100` ms default; it equals the
integer `(2000 + d) / (2 * d)`; and only the first frame's delay matters. -/
def C9Prop (fm : FrameMeta) (rest : List FrameMeta) : Prop :=
  ((deriveFps true (fm :: rest) : ℕ) : ℤ) =
      round ((1000 : ℚ) / ((if fm.delay = 0 then 100 else fm.delay : ℕ) : ℚ)) ∧
  deriveFps true (fm :: rest) =
      (2000 + (if fm.delay = 0 then 100 else fm.delay)) /
        (2 * (if fm.delay = 0 then 100 else fm.delay)) ∧
  (∀ rest', deriveFps true (fm :: rest') = deriveFps true (fm :: rest)) ∧
  deriveFps true [⟨0, 0, 0, 0, false, false, 100⟩] = 10 ∧
  deriveFps true [⟨0, 0, 0, 0, false, false, 0⟩] = 10 ∧
  deriveFps true [⟨0, 0, 0, 0, false, false, 40⟩] = 25

/-! ### Model validation vectors

The binary64 model reproduces, bit for bit, the values produced by IEEE-754
double arithmetic for the worker's blend expressions (reference values computed
with hardware doubles following the exact JS evaluation order). -/

theorem jsModel_reference_vectors :
    jsChan 19 19 1 1 (jsOutA 1 1) = 18 ∧
    jsChan 0 255 1 1 (jsOutA 1 1) = 127 ∧
    jsChan 255 0 128 255 (jsOutA 128 255) = 128 ∧
    jsChan 0 255 128 255 (jsOutA 128 255) = 127 ∧
    jsChan 100 200 77 133 (jsOutA 77 133) = 154 ∧
    jsChan 255 255 1 254 (jsOutA 1 254) = 255 ∧
    jsChan 1 1 254 3 (jsOutA 254 3) = 1 ∧
    jsChan 128 64 200 100 (jsOutA 200 100) = 121 ∧
    jsChan 7 250 13 251 (jsOutA 13 251) = 237 ∧
    jsChan 250 7 251 13 (jsOutA 251 13) = 249 ∧
    jsAlpha 1 1 = 1 ∧
    jsAlpha 128 255 = 255 ∧
    jsAlpha 77 133 = 169 ∧
    jsAlpha 200 100 = 221 ∧
    jsAlpha 251 13 = 251 := by decide

/-! ### Buffer lemmas -/

theorem getD_set_of_ne (c : List Nat) (i j v : Nat) (h : i ≠ j) :
    (c.set i v).getD j 0 = c.getD j 0 := by
  simp [List.getD_eq_getElem?_getD, List.getElem?_set_ne h]

theorem getD_set_self_lt (c : List Nat) (i v : Nat) (h : i < c.length) :
    (c.set i v).getD i 0 = v := by
  simp [List.getD_eq_getElem?_getD, List.getElem?_set_self h]

theorem getD_of_length_le (c : List Nat) (j : Nat) (h : c.length ≤ j) :
    c.getD j 0 = 0 := by
  simp [List.getD_eq_getElem?_getD, List.getElem?_eq_none h]

theorem length_writePixel4 (c : List Nat) (di r g b a : Nat) :
    (writePixel4 c di r g b a).length = c.length := by
  simp [writePixel4]

theorem getD_writePixel4_outside (c : List Nat) (di r g b a j : Nat)
    (h : j < di ∨ di + 4 ≤ j) :
    (writePixel4 c di r g b a).getD j 0 = c.getD j 0 := by
  unfold writePixel4
  rw [getD_set_of_ne _ _ _ _ (by omega), getD_set_of_ne _ _ _ _ (by omega),
    getD_set_of_ne _ _ _ _ (by omega), getD_set_of_ne _ _ _ _ (by omega)]

theorem getD_writePixel4 (c : List Nat) (di r g b a k : Nat) (hk : k < 4) :
    (writePixel4 c di r g b a).getD (di + k) 0 =
      if di + k < c.length then chan4 r g b a k else 0 := by
  by_cases h : di + k < c.length
  · rw [if_pos h]
    unfold writePixel4
    interval_cases k
    · rw [getD_set_of_ne _ _ _ _ (by omega), getD_set_of_ne _ _ _ _ (by omega),
        getD_set_of_ne _ _ _ _ (by omega)]
      have : di + 0 = di := by omega
      rw [this] at h ⊢
      exact getD_set_self_lt _ _ _ h
    · rw [getD_set_of_ne _ _ _ _ (by omega), getD_set_of_ne _ _ _ _ (by omega)]
      exact getD_set_self_lt _ _ _ (by simpa using h)
    · rw [getD_set_of_ne _ _ _ _ (by omega)]
      exact getD_set_self_lt _ _ _ (by simpa using h)
    · exact getD_set_self_lt _ _ _ (by simpa using h)
  · rw [if_neg h]
    exact getD_of_length_le _ _ (by rw [length_writePixel4]; omega)

theorem length_blendPixel (c : List Nat) (di sr sg sb sa : Nat) :
    (blendPixel c di sr sg sb sa).length = c.length := by
  simp only [blendPixel]
  by_cases h255 : sa = 255
  · rw [if_pos h255]; exact length_writePixel4 ..
  · rw [if_neg h255]
    by_cases h0 : sa = 0
    · rw [if_pos h0]
    · rw [if_neg h0]
      by_cases hlt : Dy.lt (Dy.ofNat 0) (jsOutA sa (c.getD (di+3) 0))
      · rw [if_pos hlt]; exact length_writePixel4 ..
      · rw [if_neg hlt]

theorem getD_blendPixel_outside (c : List Nat) (di sr sg sb sa j : Nat)
    (h : j < di ∨ di + 4 ≤ j) :
    (blendPixel c di sr sg sb sa).getD j 0 = c.getD j 0 := by
  simp only [blendPixel]
  by_cases h255 : sa = 255
  · rw [if_pos h255]; exact getD_writePixel4_outside _ _ _ _ _ _ _ h
  · rw [if_neg h255]
    by_cases h0 : sa = 0
    · rw [if_pos h0]
    · rw [if_neg h0]
      by_cases hlt : Dy.lt (Dy.ofNat 0) (jsOutA sa (c.getD (di+3) 0))
      · rw [if_pos hlt]; exact getD_writePixel4_outside _ _ _ _ _ _ _ h
      · rw [if_neg hlt]

theorem getD_blendPixel (c : List Nat) (di sr sg sb sa k : Nat) (hk : k < 4) :
    (blendPixel c di sr sg sb sa).getD (di + k) 0 =
      if di + k < c.length then
        blendVals (c.getD di 0) (c.getD (di+1) 0) (c.getD (di+2) 0) (c.getD (di+3) 0)
          sr sg sb sa k
      else 0 := by
  by_cases h : di + k < c.length
  · rw [if_pos h]
    simp only [blendPixel, blendVals]
    by_cases h255 : sa = 255
    · rw [if_pos h255, if_pos h255, getD_writePixel4 _ _ _ _ _ _ _ hk, if_pos h]
    · rw [if_neg h255, if_neg h255]
      by_cases h0 : sa = 0
      · rw [if_pos h0, if_pos h0]
        interval_cases k
        · simp [chan4]
        · rfl
        · rfl
        · rfl
      · rw [if_neg h0, if_neg h0]
        by_cases hlt : Dy.lt (Dy.ofNat 0) (jsOutA sa (c.getD (di+3) 0))
        · rw [if_pos hlt, if_pos hlt, getD_writePixel4 _ _ _ _ _ _ _ hk, if_pos h]
        · rw [if_neg hlt, if_neg hlt]
          interval_cases k
          · simp [chan4]
          · rfl
          · rfl
          · rfl
  · rw [if_neg h]
    exact getD_of_length_le _ _ (by rw [length_blendPixel]; omega)

theorem length_framePixel (W : Nat) (f : Frame) (y x : Nat) (c : List Nat) :
    (framePixel W f y x c).length = c.length := by
  unfold framePixel
  split
  · exact length_blendPixel ..
  · exact length_writePixel4 ..

theorem getD_framePixel_outside (W : Nat) (f : Frame) (y x : Nat) (c : List Nat) (j : Nat)
    (h : j < frameDi W f y x ∨ frameDi W f y x + 4 ≤ j) :
    (framePixel W f y x c).getD j 0 = c.getD j 0 := by
  unfold framePixel
  split
  · exact getD_blendPixel_outside _ _ _ _ _ _ _ h
  · exact getD_writePixel4_outside _ _ _ _ _ _ _ h

theorem getD_framePixel_dep (W : Nat) (f : Frame) (y x : Nat) (c₁ c₂ : List Nat)
    (hlen : c₁.length = c₂.length)
    (hag : ∀ k, k < 4 → c₁.getD (frameDi W f y x + k) 0 = c₂.getD (frameDi W f y x + k) 0)
    (k : Nat) (hk : k < 4) :
    (framePixel W f y x c₁).getD (frameDi W f y x + k) 0 =
      (framePixel W f y x c₂).getD (frameDi W f y x + k) 0 := by
  unfold framePixel
  have h0 := hag 0 (by omega)
  have h1 := hag 1 (by omega)
  have h2 := hag 2 (by omega)
  have h3 := hag 3 (by omega)
  rw [Nat.add_zero] at h0
  split
  · rw [getD_blendPixel _ _ _ _ _ _ _ hk, getD_blendPixel _ _ _ _ _ _ _ hk,
      h0, h1, h2, h3, hlen]
  · rw [getD_writePixel4 _ _ _ _ _ _ _ hk, getD_writePixel4 _ _ _ _ _ _ _ hk, hlen]

/-! ### Generic loop characterisation

The per-pixel loops write four bytes at pairwise disjoint destination ranges
(for an in-bounds patch), and each write depends only on the four bytes at its
own destination.  The following lemmas capture, generically in the loop body,
that the loop therefore (1) keeps the length, (2) leaves untouched indices
unchanged, and (3) leaves at each touched range exactly what the body would
have written starting from the original canvas. -/

theorem loopN_length (step : Nat → List Nat → List Nat)
    (len : ∀ i c', (step i c').length = c'.length) :
    ∀ n c, (loopN step n c).length = c.length := by
  intro n
  induction n with
  | zero => intro c; rfl
  | succ n ih => intro c; rw [loopN, len, ih]

theorem loopN_untouched (step : Nat → List Nat → List Nat) (touch : Nat → Nat → Prop)
    (loc : ∀ i c' j', ¬ touch i j' → (step i c').getD j' 0 = c'.getD j' 0) :
    ∀ n c j, (∀ i, i < n → ¬ touch i j) →
      (loopN step n c).getD j 0 = c.getD j 0 := by
  intro n
  induction n with
  | zero => intro c j _; rfl
  | succ n ih =>
    intro c j hj
    rw [loopN, loc n _ j (hj n (Nat.lt_succ_self n)),
      ih c j (fun i hi => hj i (Nat.lt_succ_of_lt hi))]

theorem loopN_touched (step : Nat → List Nat → List Nat) (touch : Nat → Nat → Prop)
    (len : ∀ i c', (step i c').length = c'.length)
    (loc : ∀ i c' j', ¬ touch i j' → (step i c').getD j' 0 = c'.getD j' 0)
    (dep : ∀ i c₁ c₂, c₁.length = c₂.length →
      (∀ j', touch i j' → c₁.getD j' 0 = c₂.getD j' 0) →
      ∀ j', touch i j' → (step i c₁).getD j' 0 = (step i c₂).getD j' 0) :
    ∀ n, (∀ i₁ i₂ j', i₁ < n → i₂ < n → i₁ ≠ i₂ → touch i₁ j' → ¬ touch i₂ j') →
      ∀ c i j, i < n → touch i j →
        (loopN step n c).getD j 0 = (step i c).getD j 0 := by
  intro n
  induction n with
  | zero => intro _ c i j hi _; omega
  | succ n ih =>
    intro disj c i j hi hj
    rw [loopN]
    by_cases hin : i = n
    · subst hin
      exact dep i (loopN step i c) c (loopN_length step len i c)
        (fun j' hj' => loopN_untouched step touch loc i c j'
          (fun i' hi' => disj i i' j' (by omega) (by omega) (by omega) hj')) j hj
    · have hnt : ¬ touch n j := disj i n j (by omega) (by omega) hin hj
      rw [loc n _ j hnt]
      exact ih (fun i₁ i₂ j' h1 h2 => disj i₁ i₂ j' (by omega) (by omega)) c i j (by omega) hj

theorem rowcol_index_inj (W Y₁ Y₂ r₁ r₂ : Nat) (h : Y₁ * W + r₁ = Y₂ * W + r₂)
    (h₁ : r₁ < W) (h₂ : r₂ < W) : Y₁ = Y₂ ∧ r₁ = r₂ := by
  have hW : 0 < W := by omega
  have e₁ : (Y₁ * W + r₁) / W = Y₁ := by
    rw [Nat.mul_comm Y₁ W, Nat.mul_add_div hW, Nat.div_eq_of_lt h₁, Nat.add_zero]
  have e₂ : (Y₂ * W + r₂) / W = Y₂ := by
    rw [Nat.mul_comm Y₂ W, Nat.mul_add_div hW, Nat.div_eq_of_lt h₂, Nat.add_zero]
  have hY : Y₁ = Y₂ := by rw [← e₁, ← e₂, h]
  subst hY
  exact ⟨rfl, by omega⟩

theorem loop2_length (pix : Nat → Nat → List Nat → List Nat) (fw fh : Nat)
    (pixLen : ∀ y x c, (pix y x c).length = c.length) (c : List Nat) :
    (loopN (fun y cy => loopN (fun x cx => pix y x cx) fw cy) fh c).length = c.length :=
  loopN_length _ (fun y c' => loopN_length _ (fun x c'' => pixLen y x c'') fw c') fh c

theorem loop2_untouched (pix : Nat → Nat → List Nat → List Nat) (dI : Nat → Nat → Nat)
    (fw fh : Nat)
    (pixLoc : ∀ y x c j, (j < dI y x ∨ dI y x + 4 ≤ j) →
      (pix y x c).getD j 0 = c.getD j 0)
    (c : List Nat) (j : Nat)
    (hj : ∀ y x, y < fh → x < fw → ¬ (dI y x ≤ j ∧ j < dI y x + 4)) :
    (loopN (fun y cy => loopN (fun x cx => pix y x cx) fw cy) fh c).getD j 0 =
      c.getD j 0 := by
  apply loopN_untouched _ (fun y j' => ∃ x, x < fw ∧ dI y x ≤ j' ∧ j' < dI y x + 4)
  · intro y c' j' hnt
    apply loopN_untouched _ (fun x j'' => dI y x ≤ j'' ∧ j'' < dI y x + 4)
    · intro x c'' j'' hnt'
      exact pixLoc y x c'' j'' (by omega)
    · intro x hx
      exact fun hc => hnt ⟨x, hx, hc⟩
  · intro y hy
    exact fun ⟨x, hx, hc⟩ => hj y x hy hx hc

theorem loop2_inner_disj (dI : Nat → Nat → Nat) (W X0 Y0 fw : Nat)
    (hd : ∀ y x, dI y x = ((Y0 + y) * W + (X0 + x)) * 4) (y : Nat) :
    ∀ x₁ x₂ j', x₁ < fw → x₂ < fw → x₁ ≠ x₂ →
      (dI y x₁ ≤ j' ∧ j' < dI y x₁ + 4) → ¬ (dI y x₂ ≤ j' ∧ j' < dI y x₂ + 4) := by
  intro x₁ x₂ j' _ _ hne h1 h2
  rw [hd y x₁] at h1
  rw [hd y x₂] at h2
  have hB : ∀ x : Nat, ((Y0 + y) * W + (X0 + x)) * 4 = ((Y0 + y) * W + X0) * 4 + 4 * x := by
    intro x; ring
  rw [hB x₁] at h1
  rw [hB x₂] at h2
  omega

theorem loop2_row_dep (pix : Nat → Nat → List Nat → List Nat) (dI : Nat → Nat → Nat)
    (W X0 Y0 fw : Nat)
    (hd : ∀ y x, dI y x = ((Y0 + y) * W + (X0 + x)) * 4)
    (pixLen : ∀ y x c, (pix y x c).length = c.length)
    (pixLoc : ∀ y x c j, (j < dI y x ∨ dI y x + 4 ≤ j) →
      (pix y x c).getD j 0 = c.getD j 0)
    (pixDep : ∀ y x c₁ c₂, c₁.length = c₂.length →
      (∀ k, k < 4 → c₁.getD (dI y x + k) 0 = c₂.getD (dI y x + k) 0) →
      ∀ k, k < 4 → (pix y x c₁).getD (dI y x + k) 0 = (pix y x c₂).getD (dI y x + k) 0)
    (y : Nat) (c₁ c₂ : List Nat) (hlen : c₁.length = c₂.length)
    (hag : ∀ j', (∃ x, x < fw ∧ dI y x ≤ j' ∧ j' < dI y x + 4) →
      c₁.getD j' 0 = c₂.getD j' 0)
    (j : Nat) (hj : ∃ x, x < fw ∧ dI y x ≤ j ∧ j < dI y x + 4) :
    (loopN (fun x cx => pix y x cx) fw c₁).getD j 0 =
      (loopN (fun x cx => pix y x cx) fw c₂).getD j 0 := by
  obtain ⟨x, hx, hr⟩ := hj
  have htc : ∀ c, (loopN (fun x cx => pix y x cx) fw c).getD j 0 = (pix y x c).getD j 0 := by
    intro c
    apply loopN_touched _ (fun x j' => dI y x ≤ j' ∧ j' < dI y x + 4)
      (fun x c' => pixLen y x c')
      (fun x c' j' h => pixLoc y x c' j' (by omega))
      (fun x c₁' c₂' hl ha j' hj' => by
        obtain ⟨k, hk, rfl⟩ : ∃ k, k < 4 ∧ j' = dI y x + k := ⟨j' - dI y x, by omega, by omega⟩
        exact pixDep y x c₁' c₂' hl
          (fun k' hk' => ha (dI y x + k') (by omega)) k hk)
      fw (loop2_inner_disj dI W X0 Y0 fw hd y) c x j hx hr
  rw [htc c₁, htc c₂]
  obtain ⟨k, hk, rfl⟩ : ∃ k, k < 4 ∧ j = dI y x + k := ⟨j - dI y x, by omega, by omega⟩
  exact pixDep y x c₁ c₂ hlen
    (fun k' hk' => hag (dI y x + k') ⟨x, hx, by omega⟩) k hk

theorem loop2_outer_disj (dI : Nat → Nat → Nat) (W X0 Y0 fw fh : Nat)
    (hd : ∀ y x, dI y x = ((Y0 + y) * W + (X0 + x)) * 4) (hbW : X0 + fw ≤ W) :
    ∀ y₁ y₂ j', y₁ < fh → y₂ < fh → y₁ ≠ y₂ →
      (∃ x, x < fw ∧ dI y₁ x ≤ j' ∧ j' < dI y₁ x + 4) →
      ¬ (∃ x, x < fw ∧ dI y₂ x ≤ j' ∧ j' < dI y₂ x + 4) := by
  rintro y₁ y₂ j' _ _ hne ⟨x₁, hx₁, h1⟩ ⟨x₂, hx₂, h2⟩
  rw [hd y₁ x₁] at h1
  rw [hd y₂ x₂] at h2
  have hq : (Y0 + y₁) * W + (X0 + x₁) = (Y0 + y₂) * W + (X0 + x₂) := by omega
  have := rowcol_index_inj W (Y0 + y₁) (Y0 + y₂) (X0 + x₁) (X0 + x₂) hq
    (by omega) (by omega)
  omega

theorem loop2_touched (pix : Nat → Nat → List Nat → List Nat) (dI : Nat → Nat → Nat)
    (W X0 Y0 fw fh : Nat)
    (hd : ∀ y x, dI y x = ((Y0 + y) * W + (X0 + x)) * 4)
    (pixLen : ∀ y x c, (pix y x c).length = c.length)
    (pixLoc : ∀ y x c j, (j < dI y x ∨ dI y x + 4 ≤ j) →
      (pix y x c).getD j 0 = c.getD j 0)
    (pixDep : ∀ y x c₁ c₂, c₁.length = c₂.length →
      (∀ k, k < 4 → c₁.getD (dI y x + k) 0 = c₂.getD (dI y x + k) 0) →
      ∀ k, k < 4 → (pix y x c₁).getD (dI y x + k) 0 = (pix y x c₂).getD (dI y x + k) 0)
    (hbW : X0 + fw ≤ W) (c : List Nat) (y x k : Nat)
    (hy : y < fh) (hx : x < fw) (hk : k < 4) :
    (loopN (fun y cy => loopN (fun x cx => pix y x cx) fw cy) fh c).getD (dI y x + k) 0 =
      (pix y x c).getD (dI y x + k) 0 := by
  have step₁ : (loopN (fun y cy => loopN (fun x cx => pix y x cx) fw cy) fh c).getD (dI y x + k) 0 =
      (loopN (fun x cx => pix y x cx) fw c).getD (dI y x + k) 0 := by
    apply loopN_touched _ (fun y j' => ∃ x, x < fw ∧ dI y x ≤ j' ∧ j' < dI y x + 4)
      (fun y c' => loopN_length _ (fun x c'' => pixLen y x c'') fw c')
      (fun y c' j' hnt => loopN_untouched _ (fun x j'' => dI y x ≤ j'' ∧ j'' < dI y x + 4)
        (fun x c'' j'' h => pixLoc y x c'' j'' (by omega)) fw c' j'
        (fun x hx' hc => hnt ⟨x, hx', hc⟩))
      (fun y c₁ c₂ hl ha j' hj' =>
        loop2_row_dep pix dI W X0 Y0 fw hd pixLen pixLoc pixDep y c₁ c₂ hl ha j' hj')
      fh (loop2_outer_disj dI W X0 Y0 fw fh hd hbW) c y (dI y x + k) hy
      ⟨x, hx, by omega⟩
  rw [step₁]
  apply loopN_touched _ (fun x j' => dI y x ≤ j' ∧ j' < dI y x + 4)
    (fun x c' => pixLen y x c')
    (fun x c' j' h => pixLoc y x c' j' (by omega))
    (fun x c₁' c₂' hl ha j' hj' => by
      obtain ⟨k', hk', rfl⟩ : ∃ k', k' < 4 ∧ j' = dI y x + k' := ⟨j' - dI y x, by omega, by omega⟩
      exact pixDep y x c₁' c₂' hl (fun k'' hk'' => ha (dI y x + k'') (by omega)) k' hk')
    fw (loop2_inner_disj dI W X0 Y0 fw hd y) c x (dI y x + k) hx (by omega)

/-! ### Semantics of `Dy` arithmetic -/

theorem Dy.den_pos_rat (a : Dy) : (0 : ℚ) < (a.den : ℚ) := by
  exact_mod_cast a.dpos

theorem Dy.den_ne_zero_rat (a : Dy) : (a.den : ℚ) ≠ 0 :=
  ne_of_gt a.den_pos_rat

theorem Dy.toRat_ofNat (n : Nat) : (Dy.ofNat n).toRat = (n : ℚ) := by
  simp [Dy.toRat, Dy.ofNat]

theorem Dy.toRat_add (a b : Dy) : (a.add b).toRat = a.toRat + b.toRat := by
  have ha := a.den_ne_zero_rat
  have hb := b.den_ne_zero_rat
  simp only [Dy.toRat, Dy.add]
  push_cast
  field_simp

theorem Dy.toRat_mul (a b : Dy) : (a.mul b).toRat = a.toRat * b.toRat := by
  have ha := a.den_ne_zero_rat
  have hb := b.den_ne_zero_rat
  simp only [Dy.toRat, Dy.mul]
  push_cast
  field_simp

theorem Dy.toRat_div (a b : Dy) (hb : 0 < b.num) : (a.div b).toRat = a.toRat / b.toRat := by
  have hbQ : (0 : ℚ) < (b.num : ℚ) := by exact_mod_cast hb
  have hbt : ((b.num.toNat : ℕ) : ℚ) = (b.num : ℚ) := by
    exact_mod_cast Int.toNat_of_nonneg (le_of_lt hb)
  have ha := a.den_ne_zero_rat
  have hbd := b.den_ne_zero_rat
  unfold Dy.div
  rw [dif_pos hb]
  simp only [Dy.toRat]
  push_cast
  rw [hbt]
  field_simp

theorem Dy.num_pos_iff (a : Dy) : 0 < a.num ↔ 0 < a.toRat := by
  unfold Dy.toRat
  constructor
  · intro h
    exact div_pos (by exact_mod_cast h) a.den_pos_rat
  · intro h
    by_contra hn
    push_neg at hn
    have : (a.num : ℚ) ≤ 0 := by exact_mod_cast hn
    have := div_nonpos_of_nonpos_of_nonneg this (le_of_lt a.den_pos_rat)
    exact absurd h (not_lt_of_le this)

theorem Dy.le_iff (a b : Dy) : Dy.le a b ↔ a.toRat ≤ b.toRat := by
  unfold Dy.le Dy.toRat
  rw [div_le_div_iff₀ a.den_pos_rat b.den_pos_rat]
  constructor
  · intro h; exact_mod_cast h
  · intro h; exact_mod_cast h

theorem Dy.lt_iff (a b : Dy) : Dy.lt a b ↔ a.toRat < b.toRat := by
  unfold Dy.lt Dy.toRat
  rw [div_lt_div_iff₀ a.den_pos_rat b.den_pos_rat]
  constructor
  · intro h; exact_mod_cast h
  · intro h; exact_mod_cast h

theorem int_floor_intCast_div_natCast (n : Int) (d : Nat) (hd : 0 < d) :
    ⌊(n : ℚ) / (d : ℚ)⌋ = Int.ediv n d := by
  have hdQ : (0 : ℚ) < (d : ℚ) := by exact_mod_cast hd
  have hdZ : (0 : Int) < (d : Int) := by exact_mod_cast hd
  rw [Int.floor_eq_iff]
  constructor
  · rw [le_div_iff₀ hdQ]
    calc ((Int.ediv n d : Int) : ℚ) * (d : ℚ)
        = ((Int.ediv n d * d : Int) : ℚ) := by push_cast; ring
      _ ≤ (n : ℚ) := by exact_mod_cast Int.ediv_mul_le n hdZ.ne'
  · rw [div_lt_iff₀ hdQ]
    have h : n < (Int.ediv n d + 1) * d := Int.lt_ediv_add_one_mul_self n hdZ
    calc (n : ℚ) < (((Int.ediv n d + 1) * d : Int) : ℚ) := by exact_mod_cast h
      _ = ((Int.ediv n d : Int) + 1 : ℚ) * (d : ℚ) := by push_cast; ring

theorem Dy.floor_toRat (a : Dy) : Dy.floor a = ⌊a.toRat⌋ := by
  unfold Dy.floor Dy.toRat
  rw [int_floor_intCast_div_natCast a.num a.den a.dpos]

theorem Dy.toRat_shift (a : Dy) (k : Int) : (a.shift k).toRat = a.toRat * (2:ℚ)^k := by
  unfold Dy.shift
  by_cases h : 0 ≤ k
  · rw [if_pos h]
    simp only [Dy.toRat]
    push_cast
    rw [← zpow_natCast (2:ℚ) k.toNat, Int.toNat_of_nonneg h]
    ring
  · rw [if_neg h]
    simp only [Dy.toRat]
    push_cast
    rw [← zpow_natCast (2:ℚ) (-k).toNat, Int.toNat_of_nonneg (by omega), zpow_neg]
    field_simp

theorem log2fuel_spec : ∀ fuel n, 1 ≤ n → n < 2^fuel →
    2^(log2fuel fuel n) ≤ n ∧ n < 2^(log2fuel fuel n + 1) := by
  intro fuel
  induction fuel with
  | zero => intro n h1 h2; simp at h2; omega
  | succ fuel ih =>
    intro n h1 h2
    rw [log2fuel]
    by_cases h : 2 ≤ n
    · rw [if_pos h]
      have hlt : n / 2 < 2^fuel := by
        have hp : 2^(fuel+1) = 2 * 2^fuel := by rw [Nat.pow_succ]; ring
        omega
      have hh := ih (n/2) (by omega) hlt
      have hps : ∀ m : Nat, 2^(m+1) = 2 * 2^m := by
        intro m; rw [Nat.pow_succ]; ring
      constructor
      · rw [hps]
        have := hh.1
        omega
      · rw [hps, hps] at *
        have := hh.2
        omega
    · rw [if_neg h]
      constructor
      · simpa using h1
      · simp
        omega

theorem invExpFuel_spec : ∀ fuel (q : Dy), 0 < q.num →
    (1:ℚ) ≤ q.toRat * 2^fuel →
    ((1:ℚ) ≤ q.toRat * 2^(invExpFuel fuel q) ∧
      (invExpFuel fuel q = 0 ∨ q.toRat * 2^(invExpFuel fuel q - 1) < 1)) := by
  intro fuel
  induction fuel with
  | zero =>
    intro q hq h
    rw [invExpFuel]
    exact ⟨by simpa using h, Or.inl rfl⟩
  | succ fuel ih =>
    intro q hq h
    rw [invExpFuel]
    by_cases hle : Dy.le (Dy.ofNat 1) q
    · rw [if_pos hle]
      rw [Dy.le_iff, Dy.toRat_ofNat] at hle
      exact ⟨by simpa using hle, Or.inl rfl⟩
    · rw [if_neg hle]
      have hq1 : ¬ (1:ℚ) ≤ q.toRat := by
        rw [Dy.le_iff, Dy.toRat_ofNat] at hle
        exact hle
      have hqr : 0 < q.toRat := (Dy.num_pos_iff q).mp hq
      have hs : (Dy.shift q 1).toRat = q.toRat * 2 := by
        rw [Dy.toRat_shift]
        norm_num
      have hsp : 0 < (Dy.shift q 1).num := by
        rw [Dy.num_pos_iff, hs]
        positivity
      have harg : (1:ℚ) ≤ (Dy.shift q 1).toRat * 2^fuel := by
        rw [hs]
        calc (1:ℚ) ≤ q.toRat * 2^(fuel+1) := h
          _ = q.toRat * 2 * 2^fuel := by ring
      obtain ⟨h1, h2⟩ := ih (Dy.shift q 1) hsp harg
      rw [hs] at h1 h2
      refine ⟨?_, Or.inr ?_⟩
      · calc (1:ℚ) ≤ q.toRat * 2 * 2^(invExpFuel fuel (Dy.shift q 1)) := h1
          _ = q.toRat * 2^(invExpFuel fuel (Dy.shift q 1) + 1) := by ring
      · by_cases h0 : invExpFuel fuel (Dy.shift q 1) = 0
        · rw [h0]
          simpa using lt_of_not_le hq1
        · rcases h2 with h2 | h2
          · exact absurd h2 h0
          · have he : invExpFuel fuel (Dy.shift q 1) + 1 - 1 =
                (invExpFuel fuel (Dy.shift q 1) - 1) + 1 := by omega
            rw [he]
            calc q.toRat * 2^((invExpFuel fuel (Dy.shift q 1) - 1) + 1)
                = q.toRat * 2 * 2^(invExpFuel fuel (Dy.shift q 1) - 1) := by ring
              _ < 1 := h2

theorem Dy.exp_spec (q : Dy) (hq : 0 < q.num) :
    (2:ℚ)^(Dy.exp q) ≤ q.toRat ∧ q.toRat < (2:ℚ)^(Dy.exp q + 1) := by
  have hqr : 0 < q.toRat := (Dy.num_pos_iff q).mp hq
  unfold Dy.exp
  by_cases hle : Dy.le (Dy.ofNat 1) q
  · rw [if_pos hle]
    rw [Dy.le_iff, Dy.toRat_ofNat] at hle
    have hfl1 : (1 : Int) ≤ ⌊q.toRat⌋ := by
      rw [Int.le_floor]
      exact_mod_cast hle
    have hnn : Int.toNat (Dy.floor q) = ⌊q.toRat⌋ := by
      rw [Dy.floor_toRat]
      omega
    set n := Int.toNat (Dy.floor q) with hn
    have hn1 : 1 ≤ n := by omega
    have hnq : ((n : ℕ) : ℚ) ≤ q.toRat := by
      have := Int.floor_le q.toRat
      rw [← hnn] at this
      exact_mod_cast this
    have hqn : q.toRat < ((n : ℕ) : ℚ) + 1 := by
      have := Int.lt_floor_add_one q.toRat
      rw [← hnn] at this
      exact_mod_cast this
    have hspec := log2fuel_spec n n hn1 (Nat.lt_two_pow n)
    have hc1 : (2:ℚ)^((log2fuel n n : ℕ) : ℤ) = ((2^(log2fuel n n) : ℕ) : ℚ) := by
      rw [zpow_natCast]
      norm_cast
    have hc2 : (2:ℚ)^(((log2fuel n n : ℕ) : ℤ) + 1) = ((2^(log2fuel n n + 1) : ℕ) : ℚ) := by
      have he : ((log2fuel n n : ℕ) : ℤ) + 1 = ((log2fuel n n + 1 : ℕ) : ℤ) := by push_cast; ring
      rw [he, zpow_natCast]
      norm_cast
    constructor
    · rw [hc1]
      have h1 : ((2^(log2fuel n n) : ℕ) : ℚ) ≤ ((n : ℕ) : ℚ) := by exact_mod_cast hspec.1
      linarith
    · rw [hc2]
      have h2 : ((n : ℕ) : ℚ) + 1 ≤ ((2^(log2fuel n n + 1) : ℕ) : ℚ) := by
        exact_mod_cast hspec.2
      linarith
  · rw [if_neg hle]
    have hq1 : ¬ (1:ℚ) ≤ q.toRat := by
      rw [Dy.le_iff, Dy.toRat_ofNat] at hle
      exact hle
    have hfuel : (1:ℚ) ≤ q.toRat * 2^q.den := by
      have hnum1 : (1 : Int) ≤ q.num := hq
      have hd : (q.den : ℚ) ≤ (2:ℚ)^q.den := by
        have := Nat.lt_two_pow q.den
        have h2 : ((q.den : ℕ) : ℚ) ≤ ((2^q.den : ℕ) : ℚ) := by exact_mod_cast Nat.le_of_lt this
        calc (q.den : ℚ) ≤ ((2^q.den : ℕ) : ℚ) := h2
          _ = (2:ℚ)^q.den := by push_cast; ring
      have hq1n : (1:ℚ) ≤ (q.num : ℚ) := by exact_mod_cast hnum1
      unfold Dy.toRat
      rw [div_mul_eq_mul_div, le_div_iff₀ q.den_pos_rat]
      calc (1:ℚ) * (q.den : ℚ) = (q.den : ℚ) := by ring
        _ ≤ (2:ℚ)^q.den := hd
        _ = 1 * (2:ℚ)^q.den := by ring
        _ ≤ (q.num : ℚ) * (2:ℚ)^q.den := by
          apply mul_le_mul_of_nonneg_right hq1n
          positivity
    obtain ⟨h1, h2⟩ := invExpFuel_spec q.den q hq hfuel
    set m := invExpFuel q.den q with hm
    have hmge : 1 ≤ m := by
      by_contra hc
      have : m = 0 := by omega
      rw [this] at h1
      simp at h1
      exact hq1 h1
    have hpos : (0:ℚ) < (2:ℚ)^m := by positivity
    constructor
    · rw [zpow_neg, zpow_natCast, inv_eq_one_div, div_le_iff₀ hpos]
      linarith
    · rcases h2 with h2 | h2
      · omega
      · have he : (-(m:ℤ) + 1) = -((m - 1 : ℕ) : ℤ) := by
          have hco : ((m - 1 : ℕ) : ℤ) = (m : ℤ) - 1 := by omega
          rw [hco]; ring
        rw [he, zpow_neg, zpow_natCast, inv_eq_one_div, lt_div_iff₀ (by positivity)]
        exact h2

theorem Dy.num_eq_toRat_mul_den (s : Dy) : (s.num : ℚ) = s.toRat * (s.den : ℚ) := by
  unfold Dy.toRat
  rw [div_mul_cancel₀ _ s.den_ne_zero_rat]

theorem roundEven_bounds (s : Dy) :
    s.toRat - 1/2 ≤ (roundEven s : ℚ) ∧ (roundEven s : ℚ) ≤ s.toRat + 1/2 := by
  have hfl : Dy.floor s = ⌊s.toRat⌋ := Dy.floor_toRat s
  have hle := Int.floor_le s.toRat
  have hlt := Int.lt_floor_add_one s.toRat
  have hden := s.den_pos_rat
  have hnum := s.num_eq_toRat_mul_den
  simp only [roundEven, hfl]
  by_cases h1 : 2 * (s.num - ⌊s.toRat⌋ * s.den) < (s.den : Int)
  · rw [if_pos h1]
    have h1Q : 2 * ((s.num : ℚ) - (⌊s.toRat⌋ : ℚ) * (s.den : ℚ)) < (s.den : ℚ) := by
      exact_mod_cast h1
    rw [hnum] at h1Q
    constructor
    · nlinarith
    · linarith
  · rw [if_neg h1]
    have h1Q : (s.den : ℚ) ≤ 2 * ((s.num : ℚ) - (⌊s.toRat⌋ : ℚ) * (s.den : ℚ)) := by
      have := le_of_not_lt h1
      exact_mod_cast this
    rw [hnum] at h1Q
    by_cases h2 : (s.den : Int) < 2 * (s.num - ⌊s.toRat⌋ * s.den)
    · rw [if_pos h2]
      push_cast
      constructor
      · linarith
      · nlinarith
    · rw [if_neg h2]
      have h2Q : 2 * (s.toRat * (s.den:ℚ) - (⌊s.toRat⌋ : ℚ) * (s.den : ℚ)) ≤ (s.den : ℚ) := by
        have hc' := le_of_not_lt h2
        have hc : 2 * ((s.num : ℚ) - (⌊s.toRat⌋ : ℚ) * (s.den : ℚ)) ≤ (s.den : ℚ) := by
          exact_mod_cast hc'
        rw [hnum] at hc
        exact hc
      have hfr : s.toRat - (⌊s.toRat⌋ : ℚ) = 1/2 := by nlinarith
      by_cases h3 : ⌊s.toRat⌋ % 2 = 0
      · rw [if_pos h3]
        constructor
        · linarith
        · linarith
      · rw [if_neg h3]
        push_cast
        constructor
        · linarith
        · linarith

theorem roundEven_intValued (s : Dy) (m : Int) (hm : s.toRat = (m : ℚ)) :
    roundEven s = m := by
  have hfl : Dy.floor s = m := by
    rw [Dy.floor_toRat, hm, Int.floor_intCast]
  have hnum : s.num = m * (s.den : Int) := by
    have h := s.num_eq_toRat_mul_den
    rw [hm] at h
    exact_mod_cast h
  have hr : 2 * (s.num - m * (s.den : Int)) = 0 := by rw [hnum]; ring
  simp only [roundEven, hfl, hr]
  rw [if_pos (by exact_mod_cast s.dpos)]

theorem Dy.fl_toRat (q : Dy) (hq : 0 < q.num) :
    (Dy.fl q).toRat =
      ((roundEven (Dy.shift q (52 - Dy.exp q)) : ℤ) : ℚ) * (2:ℚ)^(Dy.exp q - 52) := by
  unfold Dy.fl
  rw [if_neg (by omega)]
  rw [Dy.toRat_shift]
  congr 1
  unfold Dy.toRat
  norm_num

theorem two_zpow_add (a b : Int) : (2:ℚ)^(a + b) = (2:ℚ)^a * (2:ℚ)^b :=
  zpow_add₀ two_ne_zero a b

theorem two_zpow_pos (a : Int) : (0:ℚ) < (2:ℚ)^a :=
  zpow_pos (by norm_num) a

theorem Dy.sig_lower (q : Dy) (hq : 0 < q.num) :
    (2:ℚ)^(52:ℤ) ≤ (Dy.shift q (52 - Dy.exp q)).toRat := by
  rw [Dy.toRat_shift]
  have h1 := (Dy.exp_spec q hq).1
  have hpos := two_zpow_pos (52 - Dy.exp q)
  have hsplit : (2:ℚ)^(52:ℤ) = (2:ℚ)^(Dy.exp q) * (2:ℚ)^(52 - Dy.exp q) := by
    rw [← two_zpow_add]
    congr 1
    ring
  rw [hsplit]
  exact mul_le_mul_of_nonneg_right h1 (le_of_lt hpos)

theorem Dy.sig_upper (q : Dy) (hq : 0 < q.num) :
    (Dy.shift q (52 - Dy.exp q)).toRat < (2:ℚ)^(53:ℤ) := by
  rw [Dy.toRat_shift]
  have h2 := (Dy.exp_spec q hq).2
  have hpos := two_zpow_pos (52 - Dy.exp q)
  have hsplit : (2:ℚ)^(53:ℤ) = (2:ℚ)^(Dy.exp q + 1) * (2:ℚ)^(52 - Dy.exp q) := by
    rw [← two_zpow_add]
    congr 1
    ring
  rw [hsplit]
  exact mul_lt_mul_of_pos_right h2 hpos

theorem Dy.fl_pos (q : Dy) (hq : 0 < q.num) : 0 < (Dy.fl q).toRat := by
  rw [Dy.fl_toRat q hq]
  have hR := (roundEven_bounds (Dy.shift q (52 - Dy.exp q))).1
  have hs := Dy.sig_lower q hq
  have h52 : (4503599627370496 : ℚ) ≤ (2:ℚ)^(52:ℤ) := by norm_num
  have hRpos : (0:ℚ) < ((roundEven (Dy.shift q (52 - Dy.exp q)) : ℤ) : ℚ) := by
    linarith
  have hppos := two_zpow_pos (Dy.exp q - 52)
  positivity

theorem Dy.fl_nonneg (q : Dy) : 0 ≤ (Dy.fl q).toRat := by
  by_cases hq : 0 < q.num
  · exact le_of_lt (Dy.fl_pos q hq)
  · unfold Dy.fl
    rw [if_pos (by omega)]
    rw [Dy.toRat_ofNat]
    norm_num

theorem Dy.fl_err (q : Dy) (hq : 0 < q.num) :
    |(Dy.fl q).toRat - q.toRat| ≤ q.toRat * ((2:ℚ)^(52:ℤ))⁻¹ := by
  have hqr : 0 < q.toRat := (Dy.num_pos_iff q).mp hq
  have hb := roundEven_bounds (Dy.shift q (52 - Dy.exp q))
  have hres := Dy.fl_toRat q hq
  have hshift : (Dy.shift q (52 - Dy.exp q)).toRat = q.toRat * (2:ℚ)^(52 - Dy.exp q) :=
    Dy.toRat_shift q _
  have hppos := two_zpow_pos (Dy.exp q - 52)
  have hq2 : q.toRat = (Dy.shift q (52 - Dy.exp q)).toRat * (2:ℚ)^(Dy.exp q - 52) := by
    rw [hshift, mul_assoc, ← two_zpow_add]
    have hz : (52 - Dy.exp q) + (Dy.exp q - 52) = 0 := by ring
    rw [hz]
    norm_num
  have key : |(Dy.fl q).toRat - q.toRat| ≤ (1/2) * (2:ℚ)^(Dy.exp q - 52) := by
    rw [hres, hq2, ← sub_mul, abs_mul, abs_of_pos hppos]
    apply mul_le_mul_of_nonneg_right _ (le_of_lt hppos)
    rw [abs_sub_le_iff]
    constructor
    · linarith [hb.2]
    · linarith [hb.1]
  have hsplit : (1/2) * (2:ℚ)^(Dy.exp q - 52) = (2:ℚ)^(Dy.exp q) * ((2:ℚ)^(53:ℤ))⁻¹ := by
    have e1 : (2:ℚ)^(Dy.exp q - 52) = (2:ℚ)^(Dy.exp q) * ((2:ℚ)^(53:ℤ))⁻¹ * 2 := by
      rw [← zpow_neg, ← two_zpow_add]
      have e2 : (2:ℚ)^(Dy.exp q + -53) * 2 = (2:ℚ)^(Dy.exp q + -53) * (2:ℚ)^(1:ℤ) := by
        norm_num
      rw [e2, ← two_zpow_add]
      congr 1
      ring
    rw [e1]
    ring
  have h1 := (Dy.exp_spec q hq).1
  have hmono : (2:ℚ)^(Dy.exp q) * ((2:ℚ)^(53:ℤ))⁻¹ ≤ q.toRat * ((2:ℚ)^(53:ℤ))⁻¹ := by
    apply mul_le_mul_of_nonneg_right h1
    positivity
  have hstep : q.toRat * ((2:ℚ)^(53:ℤ))⁻¹ ≤ q.toRat * ((2:ℚ)^(52:ℤ))⁻¹ := by
    apply mul_le_mul_of_nonneg_left _ (le_of_lt hqr)
    rw [inv_le_inv₀ (by positivity) (by positivity)]
    apply zpow_le_zpow_right₀ (by norm_num)
    norm_num
  linarith

theorem Dy.fl_exact (q : Dy) (m : Nat) (t : Int) (hm1 : 0 < m)
    (hm2 : (m : ℚ) < (2:ℚ)^(53:ℤ)) (hq : q.toRat = (m : ℚ) * (2:ℚ)^t) :
    (Dy.fl q).toRat = q.toRat := by
  have hmq : (0:ℚ) < (m:ℚ) := by exact_mod_cast hm1
  have hqr : 0 < q.toRat := by
    rw [hq]
    have hp := two_zpow_pos t
    positivity
  have hqn : 0 < q.num := (Dy.num_pos_iff q).mpr hqr
  have hspec := Dy.exp_spec q hqn
  have hte : 0 ≤ t + 52 - Dy.exp q := by
    by_contra hc
    push_neg at hc
    have h1 : Dy.exp q ≥ t + 53 := by omega
    have hsplit : (2:ℚ)^(t + 53) = (2:ℚ)^(53:ℤ) * (2:ℚ)^t := by
      rw [← two_zpow_add]
      congr 1
      ring
    have hup : q.toRat < (2:ℚ)^(t + 53) := by
      rw [hq, hsplit]
      exact mul_lt_mul_of_pos_right hm2 (two_zpow_pos t)
    have hlow : (2:ℚ)^(t + 53) ≤ (2:ℚ)^(Dy.exp q) := by
      apply zpow_le_zpow_right₀ (by norm_num)
      omega
    linarith [hspec.1]
  have hsval : (Dy.shift q (52 - Dy.exp q)).toRat =
      ((m * 2^((t + 52 - Dy.exp q).toNat) : ℕ) : ℚ) := by
    rw [Dy.toRat_shift, hq, mul_assoc, ← two_zpow_add]
    have h1 : t + (52 - Dy.exp q) = (((t + 52 - Dy.exp q).toNat : ℕ) : ℤ) := by omega
    rw [h1, zpow_natCast]
    push_cast
    ring
  have hR : roundEven (Dy.shift q (52 - Dy.exp q)) =
      ((m * 2^((t + 52 - Dy.exp q).toNat) : ℕ) : ℤ) := by
    apply roundEven_intValued
    rw [hsval]
    norm_cast
  have hfl := Dy.fl_toRat q hqn
  rw [hfl, hR, hq]
  push_cast
  rw [mul_assoc, ← zpow_natCast (2:ℚ) ((t + 52 - Dy.exp q).toNat), ← two_zpow_add]
  congr 2
  omega

theorem Dy.fl_natValued (q : Dy) (n : Nat) (hn : (n : ℚ) < (2:ℚ)^(53:ℤ))
    (hq : q.toRat = (n : ℚ)) : (Dy.fl q).toRat = (n : ℚ) := by
  by_cases h0 : n = 0
  · subst h0
    have hnum : q.num = 0 := by
      have h := q.num_eq_toRat_mul_den
      rw [hq] at h
      norm_num at h
      exact_mod_cast h
    unfold Dy.fl
    rw [if_pos (by omega)]
    rw [Dy.toRat_ofNat]
  · have hfl := Dy.fl_exact q n 0 (by omega) hn (by rw [hq]; norm_num)
    rw [hfl, hq]

/-- The floor of the binary64 evaluation of `sa + A / 255` (for a byte-range
`sa` and `A = da * (255 - sa) ≤ 65025` already held exactly) is exactly the
integer `sa + A / 255` (natural division), and the value is positive: the two
roundings (of `A / 255` and of the sum) are too small to push the value across
an integer. -/
theorem jsOutA_core (sa A : Nat) (q : Dy) (hsa1 : 1 ≤ sa) (hsa2 : sa ≤ 254)
    (hAle : A ≤ 65025) (hq : q.toRat = (A : ℚ)) :
    Int.toNat (Dy.floor (Dy.fl (Dy.add (Dy.ofNat sa) (Dy.fl (Dy.div q (Dy.ofNat 255)))))) =
        sa + A / 255 ∧
      0 < (Dy.fl (Dy.add (Dy.ofNat sa) (Dy.fl (Dy.div q (Dy.ofNat 255))))).toRat := by
  have h255 : (0 : Int) < (Dy.ofNat 255).num := by norm_num [Dy.ofNat]
  have hinv : ((2:ℚ)^(52:ℤ))⁻¹ = 1/4503599627370496 := by norm_num
  have h2to53 : (2:ℚ)^(53:ℤ) = 9007199254740992 := by norm_num
  have ht2arg : (Dy.div q (Dy.ofNat 255)).toRat = (A : ℚ) / 255 := by
    rw [Dy.toRat_div _ _ h255, hq, Dy.toRat_ofNat]
    norm_num
  have hkA : A / 255 ≤ 255 := by omega
  have hkQ : ((A / 255 : ℕ) : ℚ) ≤ 255 := by exact_mod_cast hkA
  by_cases hr : A % 255 = 0
  · -- `A / 255` is exact, everything is computed exactly
    have hc : (A : ℚ) = 255 * ((A / 255 : ℕ) : ℚ) := by
      exact_mod_cast (by omega : A = 255 * (A / 255))
    have hq2 : (Dy.div q (Dy.ofNat 255)).toRat = ((A / 255 : ℕ) : ℚ) := by
      rw [ht2arg, hc]
      field_simp
    have ht2 : (Dy.fl (Dy.div q (Dy.ofNat 255))).toRat = ((A / 255 : ℕ) : ℚ) := by
      apply Dy.fl_natValued _ _ _ hq2
      rw [h2to53]
      linarith
    have hargval : (Dy.add (Dy.ofNat sa) (Dy.fl (Dy.div q (Dy.ofNat 255)))).toRat =
        ((sa + A / 255 : ℕ) : ℚ) := by
      rw [Dy.toRat_add, Dy.toRat_ofNat, ht2]
      push_cast
      ring
    have hsaQ : (1:ℚ) ≤ ((sa : ℕ) : ℚ) := by exact_mod_cast hsa1
    have hsaQ2 : ((sa : ℕ) : ℚ) ≤ 254 := by exact_mod_cast hsa2
    have houtA : (Dy.fl (Dy.add (Dy.ofNat sa) (Dy.fl (Dy.div q (Dy.ofNat 255))))).toRat =
        ((sa + A / 255 : ℕ) : ℚ) := by
      apply Dy.fl_natValued _ _ _ hargval
      rw [h2to53]
      push_cast
      linarith
    constructor
    · rw [Dy.floor_toRat, houtA, Int.floor_natCast]
      omega
    · rw [houtA]
      push_cast
      linarith
  · -- inexact division: chase the two rounding errors
    have hApos : 0 < A := by omega
    have hAQ : (0:ℚ) < (A : ℚ) := by exact_mod_cast hApos
    have hAQle : (A : ℚ) ≤ 65025 := by exact_mod_cast hAle
    have hq2pos : 0 < (Dy.div q (Dy.ofNat 255)).num := by
      rw [Dy.num_pos_iff, ht2arg]
      positivity
    have herr2 := Dy.fl_err _ hq2pos
    rw [ht2arg] at herr2
    have hsmall : (0:ℚ) < ((2:ℚ)^(52:ℤ))⁻¹ := by rw [hinv]; norm_num
    have hbound2 : |(Dy.fl (Dy.div q (Dy.ofNat 255))).toRat - (A:ℚ)/255| ≤
        255 * ((2:ℚ)^(52:ℤ))⁻¹ := by
      have h1 : (A:ℚ)/255 ≤ 255 := by linarith
      have h2 : (A:ℚ)/255 * ((2:ℚ)^(52:ℤ))⁻¹ ≤ 255 * ((2:ℚ)^(52:ℤ))⁻¹ :=
        mul_le_mul_of_nonneg_right h1 (le_of_lt hsmall)
      linarith [herr2]
    have hb2lo : (A:ℚ)/255 - 255 * ((2:ℚ)^(52:ℤ))⁻¹ ≤
        (Dy.fl (Dy.div q (Dy.ofNat 255))).toRat := by
      have := abs_sub_le_iff.mp hbound2
      linarith [this.2]
    have hb2hi : (Dy.fl (Dy.div q (Dy.ofNat 255))).toRat ≤
        (A:ℚ)/255 + 255 * ((2:ℚ)^(52:ℤ))⁻¹ := by
      have := abs_sub_le_iff.mp hbound2
      linarith [this.1]
    have ht2nn : 0 ≤ (Dy.fl (Dy.div q (Dy.ofNat 255))).toRat := Dy.fl_nonneg _
    have hargval : (Dy.add (Dy.ofNat sa) (Dy.fl (Dy.div q (Dy.ofNat 255)))).toRat =
        (sa : ℚ) + (Dy.fl (Dy.div q (Dy.ofNat 255))).toRat := by
      rw [Dy.toRat_add, Dy.toRat_ofNat]
    have hsaQ : (1:ℚ) ≤ ((sa : ℕ) : ℚ) := by exact_mod_cast hsa1
    have hsaQ2 : ((sa : ℕ) : ℚ) ≤ 254 := by exact_mod_cast hsa2
    have hargpos : 0 < (Dy.add (Dy.ofNat sa) (Dy.fl (Dy.div q (Dy.ofNat 255)))).num := by
      rw [Dy.num_pos_iff, hargval]
      linarith
    have herr3 := Dy.fl_err _ hargpos
    rw [hargval] at herr3
    have hargle : (sa : ℚ) + (Dy.fl (Dy.div q (Dy.ofNat 255))).toRat ≤ 510 := by
      have : (A:ℚ)/255 ≤ 255 := by linarith
      have h22 : 255 * ((2:ℚ)^(52:ℤ))⁻¹ ≤ 1 := by rw [hinv]; norm_num
      linarith
    have hbound3 : |(Dy.fl (Dy.add (Dy.ofNat sa) (Dy.fl (Dy.div q (Dy.ofNat 255))))).toRat -
        ((sa : ℚ) + (Dy.fl (Dy.div q (Dy.ofNat 255))).toRat)| ≤
        510 * ((2:ℚ)^(52:ℤ))⁻¹ := by
      have h2 : ((sa : ℚ) + (Dy.fl (Dy.div q (Dy.ofNat 255))).toRat) * ((2:ℚ)^(52:ℤ))⁻¹ ≤
          510 * ((2:ℚ)^(52:ℤ))⁻¹ :=
        mul_le_mul_of_nonneg_right hargle (le_of_lt hsmall)
      linarith [herr3]
    have hb3 := abs_sub_le_iff.mp hbound3
    rw [hinv] at hb2lo hb2hi hb3
    -- decompose A / 255 into integer and fractional part
    have hsplitA : (A : ℚ) = 255 * ((A / 255 : ℕ) : ℚ) + ((A % 255 : ℕ) : ℚ) := by
      exact_mod_cast (by omega : A = 255 * (A / 255) + A % 255)
    have hr1 : (1:ℚ) ≤ ((A % 255 : ℕ) : ℚ) := by
      have : 1 ≤ A % 255 := by omega
      exact_mod_cast this
    have hr2 : ((A % 255 : ℕ) : ℚ) ≤ 254 := by
      have : A % 255 ≤ 254 := by omega
      exact_mod_cast this
    have hAov : (A:ℚ)/255 = ((A / 255 : ℕ) : ℚ) + ((A % 255 : ℕ) : ℚ)/255 := by
      rw [hsplitA]
      ring
    have hfloor : Dy.floor (Dy.fl (Dy.add (Dy.ofNat sa) (Dy.fl (Dy.div q (Dy.ofNat 255))))) =
        ((sa + A / 255 : ℕ) : ℤ) := by
      rw [Dy.floor_toRat]
      rw [Int.floor_eq_iff]
      rw [hAov] at hb2lo hb2hi
      have e1 : (1:ℚ)/255 ≤ ((A % 255 : ℕ) : ℚ)/255 := by linarith
      have e2 : ((A % 255 : ℕ) : ℚ)/255 ≤ 254/255 := by linarith
      constructor
      · rw [Int.cast_natCast]
        push_cast
        linarith [hb3.2]
      · rw [Int.cast_natCast]
        push_cast
        linarith [hb3.1]
    refine ⟨by rw [hfloor]; omega, ?_⟩
    rw [hAov] at hb2lo
    have e1 : (1:ℚ)/255 ≤ ((A % 255 : ℕ) : ℚ)/255 := by linarith
    have e2 : (0:ℚ) ≤ ((A / 255 : ℕ) : ℚ) := by positivity
    linarith [hb3.2]

/-- The stored alpha byte of the semi-transparent blend branch equals the
all-integer formula `sa + da * (255 - sa) / 255` (natural division): the
binary64 roundings never change its floor. -/
theorem jsAlpha_spec (sa da : Nat) (hsa1 : 1 ≤ sa) (hsa2 : sa ≤ 254) (hda : da ≤ 255) :
    jsAlpha sa da = sa + da * (255 - sa) / 255 := by
  have hAle : da * (255 - sa) ≤ 65025 := by
    have := Nat.mul_le_mul hda (by omega : 255 - sa ≤ 255)
    omega
  have hmulRat : (Dy.mul (Dy.ofNat da) (Dy.ofNat (255 - sa))).toRat =
      ((da * (255 - sa) : ℕ) : ℚ) := by
    rw [Dy.toRat_mul, Dy.toRat_ofNat, Dy.toRat_ofNat]
    push_cast
    ring
  have h2to53 : (2:ℚ)^(53:ℤ) = 9007199254740992 := by norm_num
  have hAn : ((da * (255 - sa) : ℕ) : ℚ) < (2:ℚ)^(53:ℤ) := by
    rw [h2to53]
    have : ((da * (255 - sa) : ℕ) : ℚ) ≤ 65025 := by exact_mod_cast hAle
    linarith
  have ht1 : (Dy.fl (Dy.mul (Dy.ofNat da) (Dy.ofNat (255 - sa)))).toRat =
      ((da * (255 - sa) : ℕ) : ℚ) :=
    Dy.fl_natValued _ _ hAn hmulRat
  exact (jsOutA_core sa (da * (255 - sa)) _ hsa1 hsa2 hAle ht1).1

/-- The guard `outA > 0` of the semi-transparent branch always holds when
`1 ≤ sa`. -/
theorem jsOutA_pos (sa da : Nat) (hsa1 : 1 ≤ sa) (hsa2 : sa ≤ 254) (hda : da ≤ 255) :
    Dy.lt (Dy.ofNat 0) (jsOutA sa da) := by
  have hAle : da * (255 - sa) ≤ 65025 := by
    have := Nat.mul_le_mul hda (by omega : 255 - sa ≤ 255)
    omega
  have hmulRat : (Dy.mul (Dy.ofNat da) (Dy.ofNat (255 - sa))).toRat =
      ((da * (255 - sa) : ℕ) : ℚ) := by
    rw [Dy.toRat_mul, Dy.toRat_ofNat, Dy.toRat_ofNat]
    push_cast
    ring
  have h2to53 : (2:ℚ)^(53:ℤ) = 9007199254740992 := by norm_num
  have hAn : ((da * (255 - sa) : ℕ) : ℚ) < (2:ℚ)^(53:ℤ) := by
    rw [h2to53]
    have : ((da * (255 - sa) : ℕ) : ℚ) ≤ 65025 := by exact_mod_cast hAle
    linarith
  have ht1 : (Dy.fl (Dy.mul (Dy.ofNat da) (Dy.ofNat (255 - sa)))).toRat =
      ((da * (255 - sa) : ℕ) : ℚ) :=
    Dy.fl_natValued _ _ hAn hmulRat
  rw [Dy.lt_iff, Dy.toRat_ofNat]
  have h := (jsOutA_core sa (da * (255 - sa)) _ hsa1 hsa2 hAle ht1).2
  unfold jsOutA
  push_cast
  exact h

/-! ### Characterisation of `compositeFrame` and `disposeRegion` -/

theorem pix_index_lt (W H r q k : Nat) (hq : q < H) (hr : r < W) (hk : k < 4) :
    (q * W + r) * 4 + k < W * H * 4 := by
  have h1 : q * W + r < H * W := by
    have h2 : q * W + W = (q + 1) * W := by ring
    have h3 : (q + 1) * W ≤ H * W := Nat.mul_le_mul_right W (by omega)
    omega
  have h4 : (q * W + r + 1) * 4 ≤ (H * W) * 4 := Nat.mul_le_mul_right 4 (by omega)
  have h5 : (H * W) * 4 = W * H * 4 := by ring
  omega

theorem compositeFrame_length (W : Nat) (f : Frame) (c : List Nat) :
    (compositeFrame W f c).length = c.length := by
  unfold compositeFrame
  exact loop2_length _ f.meta.width f.meta.height
    (fun y x c' => length_framePixel W f y x c') c

theorem getD_compositeFrame_untouched (W : Nat) (f : Frame) (c : List Nat) (j : Nat)
    (hj : ∀ y x, y < f.meta.height → x < f.meta.width →
      ¬ (frameDi W f y x ≤ j ∧ j < frameDi W f y x + 4)) :
    (compositeFrame W f c).getD j 0 = c.getD j 0 := by
  unfold compositeFrame
  exact loop2_untouched _ (frameDi W f) f.meta.width f.meta.height
    (fun y x c' j' h => getD_framePixel_outside W f y x c' j' h) c j hj

theorem getD_compositeFrame_at (W : Nat) (f : Frame) (c : List Nat) (y x k : Nat)
    (hbW : f.meta.x * 2 + f.meta.width ≤ W)
    (hy : y < f.meta.height) (hx : x < f.meta.width) (hk : k < 4) :
    (compositeFrame W f c).getD (frameDi W f y x + k) 0 =
      (framePixel W f y x c).getD (frameDi W f y x + k) 0 := by
  unfold compositeFrame
  exact loop2_touched _ (frameDi W f) W (f.meta.x * 2) (f.meta.y * 2)
    f.meta.width f.meta.height (fun y x => rfl)
    (fun y x c' => length_framePixel W f y x c')
    (fun y x c' j h => getD_framePixel_outside W f y x c' j h)
    (fun y x c₁ c₂ hl ha k' hk' => getD_framePixel_dep W f y x c₁ c₂ hl ha k' hk')
    hbW c y x k hy hx hk

theorem frame_index_cases (W X0 Y0 u v x y k j : Nat) (hu : u < W) (hxW : X0 + x < W)
    (hk : k < 4) (hj : j = (v * W + u) * 4 + k)
    (h : ((Y0 + y) * W + (X0 + x)) * 4 ≤ j ∧ j < ((Y0 + y) * W + (X0 + x)) * 4 + 4) :
    Y0 + y = v ∧ X0 + x = u := by
  have heq : (Y0 + y) * W + (X0 + x) = v * W + u := by
    subst hj
    omega
  exact rowcol_index_inj W (Y0 + y) v (X0 + x) u heq hxW hu

theorem getD_compositeFrame_outside_pixel (W : Nat) (f : Frame) (c : List Nat)
    (u v k : Nat) (hbW : f.meta.x * 2 + f.meta.width ≤ W) (hu : u < W) (hk : k < 4)
    (hout : ¬ (f.meta.x * 2 ≤ u ∧ u < f.meta.x * 2 + f.meta.width ∧
      f.meta.y * 2 ≤ v ∧ v < f.meta.y * 2 + f.meta.height)) :
    (compositeFrame W f c).getD ((v * W + u) * 4 + k) 0 =
      c.getD ((v * W + u) * 4 + k) 0 := by
  apply getD_compositeFrame_untouched
  intro y x hy hx hc
  have := frame_index_cases W (f.meta.x * 2) (f.meta.y * 2) u v x y k
    ((v * W + u) * 4 + k) hu (by omega) hk rfl hc
  exact hout (by omega)

theorem disposeRegion_length (W : Nat) (m : FrameMeta) (bg : RGBA) (c : List Nat) :
    (disposeRegion W m bg c).length = c.length := by
  unfold disposeRegion
  exact loop2_length _ m.width m.height (fun y x c' => length_writePixel4 ..) c

theorem getD_disposeRegion_untouched (W : Nat) (m : FrameMeta) (bg : RGBA)
    (c : List Nat) (j : Nat)
    (hj : ∀ y x, y < m.height → x < m.width →
      ¬ (((m.y * 2 + y) * W + (m.x * 2 + x)) * 4 ≤ j ∧
        j < ((m.y * 2 + y) * W + (m.x * 2 + x)) * 4 + 4)) :
    (disposeRegion W m bg c).getD j 0 = c.getD j 0 := by
  unfold disposeRegion
  apply loop2_untouched _ (fun y x => (m.y * 2 + y) * W * 4 + m.x * 2 * 4 + x * 4)
    m.width m.height
    (fun y x c' j' h => getD_writePixel4_outside _ _ _ _ _ _ _ h) c j
  intro y x hy hx
  have he : (m.y * 2 + y) * W * 4 + m.x * 2 * 4 + x * 4 =
      ((m.y * 2 + y) * W + (m.x * 2 + x)) * 4 := by ring
  rw [he]
  exact hj y x hy hx

theorem getD_disposeRegion_at (W : Nat) (m : FrameMeta) (bg : RGBA) (c : List Nat)
    (y x k : Nat) (hbW : m.x * 2 + m.width ≤ W)
    (hy : y < m.height) (hx : x < m.width) (hk : k < 4) :
    (disposeRegion W m bg c).getD (((m.y * 2 + y) * W + (m.x * 2 + x)) * 4 + k) 0 =
      if ((m.y * 2 + y) * W + (m.x * 2 + x)) * 4 + k < c.length then
        chan4 bg.1 bg.2.1 bg.2.2.1 bg.2.2.2 k
      else 0 := by
  have he : ((m.y * 2 + y) * W + (m.x * 2 + x)) * 4 =
      (m.y * 2 + y) * W * 4 + m.x * 2 * 4 + x * 4 := by ring
  rw [he]
  have ht := loop2_touched
    (fun y x cx => writePixel4 cx ((m.y * 2 + y) * W * 4 + m.x * 2 * 4 + x * 4)
      bg.1 bg.2.1 bg.2.2.1 bg.2.2.2)
    (fun y x => (m.y * 2 + y) * W * 4 + m.x * 2 * 4 + x * 4)
    W (m.x * 2) (m.y * 2) m.width m.height
    (fun y x => by ring)
    (fun y x c' => length_writePixel4 ..)
    (fun y x c' j h => getD_writePixel4_outside _ _ _ _ _ _ _ h)
    (fun y x c₁ c₂ hl ha k' hk' => by
      rw [getD_writePixel4 _ _ _ _ _ _ _ hk', getD_writePixel4 _ _ _ _ _ _ _ hk', hl])
    hbW c y x k hy hx hk
  rw [show disposeRegion W m bg c =
      loopN (fun y cy =>
        loopN (fun x cx => writePixel4 cx ((m.y * 2 + y) * W * 4 + m.x * 2 * 4 + x * 4)
          bg.1 bg.2.1 bg.2.2.1 bg.2.2.2) m.width cy) m.height c from rfl]
  rw [ht]
  exact getD_writePixel4 _ _ _ _ _ _ _ hk

theorem getD_disposeRegion_outside_pixel (W : Nat) (m : FrameMeta) (bg : RGBA)
    (c : List Nat) (u v k : Nat) (hbW : m.x * 2 + m.width ≤ W) (hu : u < W) (hk : k < 4)
    (hout : ¬ (m.x * 2 ≤ u ∧ u < m.x * 2 + m.width ∧
      m.y * 2 ≤ v ∧ v < m.y * 2 + m.height)) :
    (disposeRegion W m bg c).getD ((v * W + u) * 4 + k) 0 =
      c.getD ((v * W + u) * 4 + k) 0 := by
  apply getD_disposeRegion_untouched
  intro y x hy hx hc
  have := frame_index_cases W (m.x * 2) (m.y * 2) u v x y k
    ((v * W + u) * 4 + k) hu (by omega) hk rfl hc
  exact hout (by omega)

/-! ### The frame loop: snapshot count, order, names -/

theorem runFrames_length (W : Nat) (bg : RGBA) :
    ∀ (frames : List Frame) (i0 : Nat) (c : List Nat),
      (runFrames W bg i0 c frames).length = frames.length := by
  intro frames
  induction frames with
  | nil => intro i0 c; rfl
  | cons f rest ih =>
    intro i0 c
    simp only [runFrames, List.length_cons, ih]

theorem runFrames_getElem (W : Nat) (bg : RGBA) :
    ∀ (frames : List Frame) (i0 : Nat) (c : List Nat) (i : Nat) (h : i < frames.length),
      (runFrames W bg i0 c frames)[i]? =
        some ⟨frameName (i0 + i),
          compositeFrame W (frames.get ⟨i, h⟩) (canvasAfter W bg c (frames.take i))⟩ := by
  intro frames
  induction frames with
  | nil => intro i0 c i h; simp at h
  | cons f rest ih =>
    intro i0 c i h
    cases i with
    | zero =>
      simp only [runFrames, List.getElem?_cons_zero, List.get, List.take, canvasAfter,
        Nat.add_zero]
    | succ i =>
      have hrest : i < rest.length := by simpa using h
      simp only [runFrames, List.getElem?_cons_succ]
      rw [ih (i0 + 1) _ i hrest]
      have hname : i0 + 1 + i = i0 + (i + 1) := by omega
      rw [hname]
      have htake : (f :: rest).take (i + 1) = f :: rest.take i := rfl
      rw [htake]
      have hca : canvasAfter W bg c (f :: rest.take i) =
          canvasAfter W bg (postFrame W bg f c) (rest.take i) := rfl
      rw [hca]
      simp only [postFrame, List.get]

/-! ### Frame-rate derivation -/

theorem dy_half_toRat : (⟨1, 2, by omega⟩ : Dy).toRat = 1/2 := by
  unfold Dy.toRat
  norm_num

theorem int_ediv_ofNat (a b : Nat) : Int.ediv (a : Int) (b : Int) = ((a / b : ℕ) : Int) := rfl

theorem int_floor_natCast_div_natCast (a b : Nat) (hb : 0 < b) :
    ⌊(a : ℚ) / (b : ℚ)⌋ = ((a / b : ℕ) : ℤ) := by
  have h1 : ((a : ℕ) : ℚ) = (((a : ℕ) : ℤ) : ℚ) := by push_cast; ring
  rw [h1, int_floor_intCast_div_natCast _ _ hb, int_ediv_ofNat]

theorem jsFps_eq (d : Nat) (hd1 : 1 ≤ d) (hd2 : d ≤ 16777216) :
    Int.toNat (mathRound (Dy.fl (Dy.div (Dy.ofNat 1000) (Dy.ofNat d)))) =
      (2000 + d) / (2 * d) ∧
    (((2000 + d) / (2 * d) : ℕ) : ℤ) = round ((1000 : ℚ) / (d : ℚ)) := by
  have hdQ : (0:ℚ) < (d : ℚ) := by exact_mod_cast hd1
  have hdnum : (0 : Int) < (Dy.ofNat d).num := by
    simp only [Dy.ofNat]
    exact_mod_cast hd1
  have hq0 : (Dy.div (Dy.ofNat 1000) (Dy.ofNat d)).toRat = (1000 : ℚ) / (d : ℚ) := by
    rw [Dy.toRat_div _ _ hdnum, Dy.toRat_ofNat, Dy.toRat_ofNat]
    norm_num
  have hq0pos : 0 < (Dy.div (Dy.ofNat 1000) (Dy.ofNat d)).num := by
    rw [Dy.num_pos_iff, hq0]
    positivity
  have hsum : (1000 : ℚ) / (d : ℚ) + 1/2 = ((2000 + d : ℕ) : ℚ) / ((2 * d : ℕ) : ℚ) := by
    push_cast
    field_simp
    ring
  have hfloorB : ⌊(1000 : ℚ) / (d : ℚ) + 1/2⌋ = (((2000 + d) / (2 * d) : ℕ) : ℤ) := by
    rw [hsum]
    exact int_floor_natCast_div_natCast (2000 + d) (2 * d) (by omega)
  have hroundB : round ((1000 : ℚ) / (d : ℚ)) = (((2000 + d) / (2 * d) : ℕ) : ℤ) := by
    rw [round_eq, hfloorB]
  refine ⟨?_, hroundB.symm⟩
  have hmr : ∀ q : Dy, mathRound q = ⌊q.toRat + 1/2⌋ := by
    intro q
    unfold mathRound
    rw [Dy.floor_toRat, Dy.toRat_add, dy_half_toRat]
  by_cases hdvd : (2 * d) ∣ (2000 + d)
  · -- the tie / exact-integer case: `1000/d` is a dyadic `m/2`, held exactly
    obtain ⟨n, hn⟩ := hdvd
    have hn1 : 1 ≤ n := by
      rcases Nat.eq_zero_or_pos n with h0 | hpos
      · rw [h0, Nat.mul_zero] at hn
        omega
      · exact hpos
    have h2d : 2 * d ≤ 2 * d * n := by
      have h1 : 2 * d * 1 ≤ 2 * d * n := Nat.mul_le_mul_left (2 * d) hn1
      omega
    have hdle : d ≤ 2000 := by
      rw [← hn] at h2d
      omega
    have h2000 : d ∣ 2000 := by
      refine ⟨2 * n - 1, ?_⟩
      have hc : d * (2 * n - 1) + d = 2 * d * n := by
        have he0 : 2 * n - 1 + 1 = 2 * n := by omega
        have h1 : d * (2 * n - 1) + d = d * (2 * n - 1 + 1) := by ring
        rw [h1, he0]
        ring
      have hc2 : d * (2 * n - 1) + d = 2000 + d := by rw [hc, ← hn]
      exact (Nat.add_right_cancel hc2).symm
    have hm : (1000 : ℚ) / (d : ℚ) = ((2000 / d : ℕ) : ℚ) * (2:ℚ)^(-1 : ℤ) := by
      have hc : ((2000 / d : ℕ) : ℚ) = 2000 / (d : ℚ) := by
        rw [Nat.cast_div h2000 (by exact_mod_cast (by omega : d ≠ 0))]
        push_cast
        ring
      rw [hc, zpow_neg_one]
      field_simp
      ring
    have hfl : (Dy.fl (Dy.div (Dy.ofNat 1000) (Dy.ofNat d))).toRat =
        (1000 : ℚ) / (d : ℚ) := by
      have hmpos : 0 < 2000 / d := Nat.div_pos hdle (by omega)
      have hmlt : ((2000 / d : ℕ) : ℚ) < (2:ℚ)^(53:ℤ) := by
        have h1 : (2000 / d : ℕ) ≤ 2000 := Nat.div_le_self 2000 d
        have h2 : ((2000 / d : ℕ) : ℚ) ≤ 2000 := by exact_mod_cast h1
        have h3 : (2:ℚ)^(53:ℤ) = 9007199254740992 := by norm_num
        rw [h3]
        linarith
      have hres := Dy.fl_exact (Dy.div (Dy.ofNat 1000) (Dy.ofNat d)) (2000 / d) (-1)
        hmpos hmlt (by rw [hq0]; exact hm)
      rw [hres, hq0]
    rw [hmr, hfl, hfloorB]
    exact Int.toNat_natCast _
  · -- inexact: the rounding error cannot move the value across an integer
    have herr := Dy.fl_err _ hq0pos
    rw [hq0] at herr
    have hinv : ((2:ℚ)^(52:ℤ))⁻¹ = 1/4503599627370496 := by norm_num
    rw [hinv] at herr
    have hqle : (1000 : ℚ) / (d : ℚ) ≤ 1000 := by
      rw [div_le_iff₀ hdQ]
      have h1 : (1:ℚ) ≤ (d:ℚ) := by exact_mod_cast hd1
      nlinarith
    have herr2 : |(Dy.fl (Dy.div (Dy.ofNat 1000) (Dy.ofNat d))).toRat -
        (1000 : ℚ) / (d : ℚ)| ≤ 1000 * (1/4503599627370496) := by
      have h2 : (1000 : ℚ) / (d : ℚ) * (1/4503599627370496) ≤
          1000 * (1/4503599627370496) := by
        apply mul_le_mul_of_nonneg_right hqle
        norm_num
      linarith [herr]
    have hb := abs_sub_le_iff.mp herr2
    have hrpos : 1 ≤ (2000 + d) % (2 * d) :=
      Nat.pos_of_ne_zero (fun h0 => hdvd (Nat.dvd_of_mod_eq_zero h0))
    have hrlt : (2000 + d) % (2 * d) ≤ 2 * d - 1 :=
      Nat.le_sub_one_of_lt (Nat.mod_lt _ (by omega))
    have hDQ : (0:ℚ) < ((2 * d : ℕ) : ℚ) := by
      have : (0:ℕ) < 2 * d := by omega
      exact_mod_cast this
    have hNQ : ((2000 + d : ℕ) : ℚ) =
        ((2 * d : ℕ) : ℚ) * (((2000 + d) / (2 * d) : ℕ) : ℚ) +
          (((2000 + d) % (2 * d) : ℕ) : ℚ) := by
      exact_mod_cast (Nat.div_add_mod (2000 + d) (2 * d)).symm
    have hsplitQ : ((2000 + d : ℕ) : ℚ) / ((2 * d : ℕ) : ℚ) =
        (((2000 + d) / (2 * d) : ℕ) : ℚ) +
          (((2000 + d) % (2 * d) : ℕ) : ℚ) / ((2 * d : ℕ) : ℚ) := by
      rw [hNQ]
      field_simp
      ring
    have hcomb : (1000 : ℚ) / (d : ℚ) + 1/2 =
        (((2000 + d) / (2 * d) : ℕ) : ℚ) +
          (((2000 + d) % (2 * d) : ℕ) : ℚ) / ((2 * d : ℕ) : ℚ) := by
      rw [hsum, hsplitQ]
    have hr1Q : (1:ℚ) ≤ (((2000 + d) % (2 * d) : ℕ) : ℚ) := by exact_mod_cast hrpos
    have hr2Q : (((2000 + d) % (2 * d) : ℕ) : ℚ) ≤ ((2 * d : ℕ) : ℚ) - 1 := by
      have h1 : (((2000 + d) % (2 * d) : ℕ) : ℚ) ≤ ((2 * d - 1 : ℕ) : ℚ) := by
        exact_mod_cast hrlt
      have h2 : ((2 * d - 1 : ℕ) : ℚ) = ((2 * d : ℕ) : ℚ) - 1 := by
        have : (2 * d - 1) + 1 = 2 * d := by omega
        exact_mod_cast (by omega : ((2 * d - 1 : ℕ) : ℤ) = ((2 * d : ℕ) : ℤ) - 1)
      rw [h2] at h1
      exact h1
    have hDle : ((2 * d : ℕ) : ℚ) ≤ 33554432 := by
      have : 2 * d ≤ 33554432 := by omega
      exact_mod_cast this
    have hfr_lo : (1:ℚ)/33554432 ≤
        (((2000 + d) % (2 * d) : ℕ) : ℚ) / ((2 * d : ℕ) : ℚ) := by
      rw [div_le_div_iff₀ (by norm_num) hDQ]
      nlinarith
    have hfr_hi : (((2000 + d) % (2 * d) : ℕ) : ℚ) / ((2 * d : ℕ) : ℚ) ≤
        1 - 1/33554432 := by
      rw [div_le_iff₀ hDQ]
      nlinarith
    rw [hmr]
    have hfloor : ⌊(Dy.fl (Dy.div (Dy.ofNat 1000) (Dy.ofNat d))).toRat + 1/2⌋ =
        (((2000 + d) / (2 * d) : ℕ) : ℤ) := by
      rw [Int.floor_eq_iff]
      constructor
      · rw [Int.cast_natCast]
        linarith [hb.2]
      · rw [Int.cast_natCast]
        linarith [hb.1]
    rw [hfloor]
    exact Int.toNat_natCast _

/-! ### Claim theorems -/

/-- C1 (counterexample): the claim's all-integer-division source-over formula
does not match the code.  For source `(0,0,0,1)` blended over destination
`(255,0,0,1)`, the formula of the claim yields red channel `254`, but the
worker (binary64 arithmetic, one final truncation) stores `127`. -/
theorem C1_counterexample :
    specOutC 0 255 1 1 = 254 ∧
      blendPixel [255, 0, 0, 1] 0 0 0 0 1 = [127, 0, 0, 1] := by decide

/-- C1 (amended): for `blend = true` and `0 < sa < 255` the worker stores
alpha `sa + da*(255-sa)/255` (integer division — the roundings never move its
floor), and stores each color channel as the binary64 evaluation of
`(sc*sa + dc*da*(255-sa)/255)/outA` truncated once at the end (`jsChan`), not
as the nested integer-division formula; for the spec's fixed example, source
`(255,0,0,128)` over destination `(0,0,255,255)` gives `outA = 255` and
`outR = 128`. -/
theorem C1_blend_stores_float_semantics (c : List Nat) (di sr sg sb sa : Nat)
    (h1 : 0 < sa) (h2 : sa < 255) (hdi : di + 3 < c.length)
    (hda : c.getD (di+3) 0 ≤ 255) :
    (blendPixel c di sr sg sb sa).getD (di + 3) 0 =
        sa + (c.getD (di+3) 0) * (255 - sa) / 255 ∧
      (blendPixel c di sr sg sb sa).getD di 0 =
        jsChan sr (c.getD di 0) sa (c.getD (di+3) 0) (jsOutA sa (c.getD (di+3) 0)) ∧
      (blendPixel c di sr sg sb sa).getD (di + 1) 0 =
        jsChan sg (c.getD (di+1) 0) sa (c.getD (di+3) 0) (jsOutA sa (c.getD (di+3) 0)) ∧
      (blendPixel c di sr sg sb sa).getD (di + 2) 0 =
        jsChan sb (c.getD (di+2) 0) sa (c.getD (di+3) 0) (jsOutA sa (c.getD (di+3) 0)) ∧
      blendPixel [0, 0, 255, 255] 0 255 0 0 128 = [128, 0, 127, 255] := by
  have hguard := jsOutA_pos sa (c.getD (di+3) 0) h1 (by omega) hda
  have hval : ∀ k, k < 4 → (blendPixel c di sr sg sb sa).getD (di + k) 0 =
      if di + k < c.length then
        blendVals (c.getD di 0) (c.getD (di+1) 0) (c.getD (di+2) 0) (c.getD (di+3) 0)
          sr sg sb sa k
      else 0 :=
    fun k hk => getD_blendPixel c di sr sg sb sa k hk
  have hbv : ∀ k, blendVals (c.getD di 0) (c.getD (di+1) 0) (c.getD (di+2) 0)
      (c.getD (di+3) 0) sr sg sb sa k =
      chan4 (jsChan sr (c.getD di 0) sa (c.getD (di+3) 0) (jsOutA sa (c.getD (di+3) 0)))
        (jsChan sg (c.getD (di+1) 0) sa (c.getD (di+3) 0) (jsOutA sa (c.getD (di+3) 0)))
        (jsChan sb (c.getD (di+2) 0) sa (c.getD (di+3) 0) (jsOutA sa (c.getD (di+3) 0)))
        (jsAlpha sa (c.getD (di+3) 0)) k := by
    intro k
    unfold blendVals
    rw [if_neg (by omega), if_neg (by omega), if_pos hguard]
  refine ⟨?_, ?_, ?_, ?_, by decide⟩
  · rw [hval 3 (by omega), if_pos hdi, hbv 3]
    exact jsAlpha_spec sa (c.getD (di+3) 0) h1 (by omega) hda
  · have h := hval 0 (by omega)
    rw [Nat.add_zero] at h
    rw [h, if_pos (by omega : di < c.length), hbv 0]
    rfl
  · rw [hval 1 (by omega), if_pos (by omega : di + 1 < c.length), hbv 1]
    rfl
  · rw [hval 2 (by omega), if_pos (by omega : di + 2 < c.length), hbv 2]
    rfl

/-- Witness for C1: concrete instance with canvas `[10,20,30,40]`, source
`(1,2,3)` with alpha `100`. -/
theorem C1_blend_stores_float_semantics_witness :
    (blendPixel [10, 20, 30, 40] 0 1 2 3 100).getD (0 + 3) 0 =
        100 + (([10, 20, 30, 40] : List Nat).getD (0+3) 0) * (255 - 100) / 255 ∧
      (blendPixel [10, 20, 30, 40] 0 1 2 3 100).getD 0 0 =
        jsChan 1 (([10, 20, 30, 40] : List Nat).getD 0 0) 100
          (([10, 20, 30, 40] : List Nat).getD (0+3) 0)
          (jsOutA 100 (([10, 20, 30, 40] : List Nat).getD (0+3) 0)) ∧
      (blendPixel [10, 20, 30, 40] 0 1 2 3 100).getD (0 + 1) 0 =
        jsChan 2 (([10, 20, 30, 40] : List Nat).getD (0+1) 0) 100
          (([10, 20, 30, 40] : List Nat).getD (0+3) 0)
          (jsOutA 100 (([10, 20, 30, 40] : List Nat).getD (0+3) 0)) ∧
      (blendPixel [10, 20, 30, 40] 0 1 2 3 100).getD (0 + 2) 0 =
        jsChan 3 (([10, 20, 30, 40] : List Nat).getD (0+2) 0) 100
          (([10, 20, 30, 40] : List Nat).getD (0+3) 0)
          (jsOutA 100 (([10, 20, 30, 40] : List Nat).getD (0+3) 0)) ∧
      blendPixel [0, 0, 255, 255] 0 255 0 0 128 = [128, 0, 127, 255] :=
  C1_blend_stores_float_semantics [10, 20, 30, 40] 0 1 2 3 100
    (by decide) (by decide) (by decide) (by decide)

/-- C2: every patch pixel is composited at the doubled stored offset — pixel
`(x, y)` of the patch affects exactly canvas position `(2*ox + x, 2*oy + y)`,
and no byte outside the doubled region changes, for every frame (any blend
mode). -/
theorem C2_offset_doubling (W : Nat) (f : Frame) (c : List Nat)
    (hbW : f.meta.x * 2 + f.meta.width ≤ W) : C2Prop W f c := by
  constructor
  · intro y x k hy hx hk
    exact getD_compositeFrame_at W f c y x k hbW hy hx hk
  · intro u v k hu hk hout
    exact getD_compositeFrame_outside_pixel W f c u v k hbW hu hk hout

/-- Witness for C2: a `2×1` patch at stored offset `(1, 0)` on a `4`-wide
canvas. -/
theorem C2_offset_doubling_witness :
    C2Prop 4 ⟨⟨1, 0, 2, 1, false, false, 0⟩, [1, 2, 3, 4, 5, 6, 7, 8]⟩
      (List.replicate 16 0) :=
  C2_offset_doubling 4 ⟨⟨1, 0, 2, 1, false, false, 0⟩, [1, 2, 3, 4, 5, 6, 7, 8]⟩
    (List.replicate 16 0) (by decide)

/-- C3: for a frame with `dispose = true` the snapshot is taken before the
dispose clear (it is the composited canvas), the canvas passed to the next
frame has the whole doubled patch region overwritten with the background color
in all four channels, and bytes outside that region are untouched by the
clear. -/
theorem C3_dispose_after_snapshot (W H : Nat) (bg : RGBA) (f : Frame) (c : List Nat)
    (i0 : Nat) (rest : List Frame) (hd : f.meta.dispose = true)
    (hlen : c.length = W * H * 4)
    (hbW : f.meta.x * 2 + f.meta.width ≤ W)
    (hbH : f.meta.y * 2 + f.meta.height ≤ H) :
    C3Prop W bg f c i0 rest := by
  refine ⟨?_, ?_, ?_⟩
  · simp [runFrames, hd]
  · intro y x k hy hx hk
    have hidx : ((f.meta.y * 2 + y) * W + (f.meta.x * 2 + x)) * 4 + k <
        (compositeFrame W f c).length := by
      rw [compositeFrame_length, hlen]
      exact pix_index_lt W H (f.meta.x * 2 + x) (f.meta.y * 2 + y) k
        (by omega) (by omega) hk
    rw [getD_disposeRegion_at W f.meta bg (compositeFrame W f c) y x k hbW hy hx hk,
      if_pos hidx]
  · intro u v k hu hk hout
    exact getD_disposeRegion_outside_pixel W f.meta bg _ u v k hbW hu hk hout

/-- Witness for C3: a `1×1` dispose patch at stored offset `(0, 0)` on a
`2×2` canvas. -/
theorem C3_dispose_after_snapshot_witness :
    C3Prop 2 (9, 9, 9, 9) ⟨⟨0, 0, 1, 1, true, true, 0⟩, [1, 2, 3, 4]⟩
      (List.replicate 16 0) 0 [] :=
  C3_dispose_after_snapshot 2 2 (9, 9, 9, 9) ⟨⟨0, 0, 1, 1, true, true, 0⟩, [1, 2, 3, 4]⟩
    (List.replicate 16 0) 0 [] (by decide) (by decide) (by decide) (by decide)

/-- C4: evaluation at the failing input.  On a `2×2` canvas, a `1×1`
`blend=false` patch at stored offset `(1, 0)` has true offset `(2, 0)` — fully
right of the canvas.  The claimed clipping would leave the canvas unchanged;
the code instead computes `di = ((0+0)*2 + (2+0))*4 = 8` and writes the patch
byte `9` into canvas pixel `(0, 1)` — a wrong-row write (no clipping exists in
`convert`). -/
theorem C4_no_clipping_eval :
    (compositeFrame 2 ⟨⟨1, 0, 1, 1, false, false, 0⟩, [9, 9, 9, 9]⟩
        (List.replicate 16 0)).getD ((1 * 2 + 0) * 4 + 0) 0 = 9 ∧
      compositeFrame 2 ⟨⟨1, 0, 1, 1, false, false, 0⟩, [9, 9, 9, 9]⟩
        (List.replicate 16 0) ≠ List.replicate 16 0 := by decide

/-- C5: for `blend = true` and source alpha `255` the written pixel is
bit-identical to the `blend = false` direct overwrite — at the single-pixel
level, and at the frame-pixel level for a patch pixel whose alpha byte is
`255`. -/
theorem C5_opaque_blend_is_overwrite :
    (∀ (c : List Nat) (di sr sg sb : Nat),
      blendPixel c di sr sg sb 255 = writePixel4 c di sr sg sb 255) ∧
    (∀ (W : Nat) (m : FrameMeta) (rgba : List Nat) (y x : Nat) (c : List Nat),
      rgba.getD ((y * m.width + x) * 4 + 3) 0 = 255 →
      framePixel W ⟨⟨m.x, m.y, m.width, m.height, true, m.dispose, m.delay⟩, rgba⟩ y x c =
        framePixel W ⟨⟨m.x, m.y, m.width, m.height, false, m.dispose, m.delay⟩, rgba⟩ y x c) := by
  constructor
  · intro c di sr sg sb
    simp [blendPixel]
  · intro W m rgba y x c h
    rw [List.getD_eq_getElem?_getD] at h
    simp [framePixel, frameSi, frameDi, blendPixel, h]

/-- Witness for C5. -/
theorem C5_opaque_blend_is_overwrite_witness :
    framePixel 1 ⟨⟨0, 0, 1, 1, true, false, 0⟩, [7, 8, 9, 255]⟩ 0 0 [1, 2, 3, 4] =
      framePixel 1 ⟨⟨0, 0, 1, 1, false, false, 0⟩, [7, 8, 9, 255]⟩ 0 0 [1, 2, 3, 4] :=
  C5_opaque_blend_is_overwrite.2 1 ⟨0, 0, 1, 1, true, false, 0⟩ [7, 8, 9, 255] 0 0
    [1, 2, 3, 4] (by decide)

/-- C6: a `blend = false` frame copies all four channels of every patch pixel
verbatim to the canvas (no compositing arithmetic), at the doubled offsets. -/
theorem C6_direct_copy (W H : Nat) (f : Frame) (c : List Nat)
    (hb : f.meta.blend = false) (hlen : c.length = W * H * 4)
    (hbW : f.meta.x * 2 + f.meta.width ≤ W)
    (hbH : f.meta.y * 2 + f.meta.height ≤ H) : C6Prop W f c := by
  intro y x k hy hx hk
  rw [show ((f.meta.y * 2 + y) * W + (f.meta.x * 2 + x)) * 4 = frameDi W f y x from rfl]
  rw [getD_compositeFrame_at W f c y x k hbW hy hx hk]
  simp only [framePixel, hb]
  rw [if_neg (by simp)]
  have hidx : frameDi W f y x + k < c.length := by
    rw [hlen]
    exact pix_index_lt W H (f.meta.x * 2 + x) (f.meta.y * 2 + y) k
      (by omega) (by omega) hk
  rw [getD_writePixel4 c (frameDi W f y x) _ _ _ _ k hk, if_pos hidx]
  interval_cases k
  · simp [chan4, frameSi]
  · simp [chan4, frameSi]
  · simp [chan4, frameSi]
  · simp [chan4, frameSi]

/-- Witness for C6: a `1×1` patch `[11,22,33,44]` at stored offset `(0, 0)` on
a `2×2` canvas. -/
theorem C6_direct_copy_witness :
    C6Prop 2 ⟨⟨0, 0, 1, 1, false, false, 0⟩, [11, 22, 33, 44]⟩ (List.replicate 16 7) :=
  C6_direct_copy 2 2 ⟨⟨0, 0, 1, 1, false, false, 0⟩, [11, 22, 33, 44]⟩
    (List.replicate 16 7) (by decide) (by decide) (by decide) (by decide)

/-- C7: for `blend = true` and source alpha `0`, the canvas is byte-for-byte
unchanged — at the single-pixel level, and at the frame-pixel level for a patch
pixel whose alpha byte is `0`. -/
theorem C7_transparent_noop :
    (∀ (c : List Nat) (di sr sg sb : Nat), blendPixel c di sr sg sb 0 = c) ∧
    (∀ (W : Nat) (m : FrameMeta) (rgba : List Nat) (y x : Nat) (c : List Nat),
      rgba.getD ((y * m.width + x) * 4 + 3) 0 = 0 →
      framePixel W ⟨⟨m.x, m.y, m.width, m.height, true, m.dispose, m.delay⟩, rgba⟩ y x c = c) := by
  constructor
  · intro c di sr sg sb
    simp [blendPixel]
  · intro W m rgba y x c h
    rw [List.getD_eq_getElem?_getD] at h
    simp [framePixel, frameSi, frameDi, blendPixel, h]

/-- Witness for C7. -/
theorem C7_transparent_noop_witness :
    framePixel 1 ⟨⟨0, 0, 1, 1, true, false, 0⟩, [7, 8, 9, 0]⟩ 0 0 [1, 2, 3, 4] =
      [1, 2, 3, 4] :=
  C7_transparent_noop.2 1 ⟨0, 0, 1, 1, true, false, 0⟩ [7, 8, 9, 0] 0 0
    [1, 2, 3, 4] (by decide)

/-- C8 (counterexample): the artifact identifier is `i.toString().padStart(5)`,
which is *not* a fixed-width 5-digit index for every frame index: at index
`100000` it has six digits, and the lexicographic order of the names inverts
the numeric order (`frame_100000.png` sorts before `frame_99999.png`). -/
theorem C8_counterexample :
    (pad5 100000).length = 6 ∧
      frameName 100000 = "frame_100000.png" ∧
      99999 < 100000 ∧
      (frameName 100000).data < (frameName 99999).data := by decide

/-- C8 (amended): exactly one snapshot per frame, snapshot `i` is the canvas
after applying patches `0..i` in order (with dispose clears in between), and
its name is `frame_` + the zero-padded (to at least five digits) decimal index
+ `.png`. -/
theorem C8_snapshot_sequence (W : Nat) (bg : RGBA) (c : List Nat)
    (frames : List Frame) : C8Prop W bg c frames := by
  refine ⟨runFrames_length W bg frames 0 c, ?_⟩
  intro i h
  rw [runFrames_getElem W bg frames 0 c i h]
  simp

/-- Witness for C8. -/
theorem C8_snapshot_sequence_witness :
    (runFrames 1 (0, 0, 0, 0) 0 [5, 5, 5, 5]
        [⟨⟨0, 0, 1, 1, false, false, 0⟩, [1, 2, 3, 4]⟩])[0]? =
      some ⟨frameName 0,
        compositeFrame 1 (([⟨⟨0, 0, 1, 1, false, false, 0⟩, [1, 2, 3, 4]⟩] :
            List Frame).get ⟨0, by decide⟩)
          (canvasAfter 1 (0, 0, 0, 0) [5, 5, 5, 5]
            (([⟨⟨0, 0, 1, 1, false, false, 0⟩, [1, 2, 3, 4]⟩] : List Frame).take 0))⟩ :=
  (C8_snapshot_sequence 1 (0, 0, 0, 0) [5, 5, 5, 5]
    [⟨⟨0, 0, 1, 1, false, false, 0⟩, [1, 2, 3, 4]⟩]).2 0 (by decide)

/-- C9: the output frame rate is `Math.round(1000 / d)` where `d` is the first
frame's delay with `0` (or missing) replaced by `100`; it equals
`(2000 + d) / (2 * d)` in integer arithmetic; only the first frame's delay
matters; and the spec's examples hold (`100 → 10`, `0 → 10`, `40 → 25`).
The delay bound is the container's 24-bit delay field. -/
theorem C9_framerate (fm : FrameMeta) (rest : List FrameMeta)
    (hdel : fm.delay ≤ 16777216) : C9Prop fm rest := by
  have hd1 : 1 ≤ (if fm.delay = 0 then 100 else fm.delay) := by split <;> omega
  have hd2 : (if fm.delay = 0 then 100 else fm.delay) ≤ 16777216 := by split <;> omega
  obtain ⟨hA, hB⟩ := jsFps_eq (if fm.delay = 0 then 100 else fm.delay) hd1 hd2
  have hderive : deriveFps true (fm :: rest) =
      Int.toNat (mathRound (Dy.fl (Dy.div (Dy.ofNat 1000)
        (Dy.ofNat (if fm.delay = 0 then 100 else fm.delay))))) := rfl
  refine ⟨?_, ?_, ?_, by decide, by decide, by decide⟩
  · rw [hderive, hA]
    exact hB
  · rw [hderive, hA]
  · intro rest'
    rfl

/-- Witness for C9: first frame delay `40` ms. -/
theorem C9_framerate_witness : C9Prop ⟨0, 0, 0, 0, false, false, 40⟩ [] :=
  C9_framerate ⟨0, 0, 0, 0, false, false, 40⟩ [] (by decide)

/-- C10: for `0 < sa < 255` and a byte destination alpha, the divide-by-zero
guard `outA > 0` of the semi-transparent branch always holds, the stored alpha
is at least `sa`, and the branch always performs the four-byte write (the
unwritten-pixel path is unreachable). -/
theorem C10_guard_always_holds (c : List Nat) (di sr sg sb sa : Nat)
    (h1 : 0 < sa) (h2 : sa < 255) (hda : c.getD (di+3) 0 ≤ 255) :
    Dy.lt (Dy.ofNat 0) (jsOutA sa (c.getD (di+3) 0)) ∧
      sa ≤ jsAlpha sa (c.getD (di+3) 0) ∧
      blendPixel c di sr sg sb sa =
        writePixel4 c di
          (jsChan sr (c.getD di 0) sa (c.getD (di+3) 0) (jsOutA sa (c.getD (di+3) 0)))
          (jsChan sg (c.getD (di+1) 0) sa (c.getD (di+3) 0) (jsOutA sa (c.getD (di+3) 0)))
          (jsChan sb (c.getD (di+2) 0) sa (c.getD (di+3) 0) (jsOutA sa (c.getD (di+3) 0)))
          (jsAlpha sa (c.getD (di+3) 0)) := by
  have hguard := jsOutA_pos sa (c.getD (di+3) 0) h1 (by omega) hda
  refine ⟨hguard, ?_, ?_⟩
  · rw [jsAlpha_spec sa (c.getD (di+3) 0) h1 (by omega) hda]
    omega
  · simp only [blendPixel]
    rw [if_neg (by omega), if_neg (by omega), if_pos hguard]

/-- Witness for C10. -/
theorem C10_guard_always_holds_witness :
    Dy.lt (Dy.ofNat 0) (jsOutA 100 (([10, 20, 30, 40] : List Nat).getD (0+3) 0)) ∧
      100 ≤ jsAlpha 100 (([10, 20, 30, 40] : List Nat).getD (0+3) 0) ∧
      blendPixel [10, 20, 30, 40] 0 5 6 7 100 =
        writePixel4 [10, 20, 30, 40] 0
          (jsChan 5 (([10, 20, 30, 40] : List Nat).getD 0 0) 100
            (([10, 20, 30, 40] : List Nat).getD (0+3) 0)
            (jsOutA 100 (([10, 20, 30, 40] : List Nat).getD (0+3) 0)))
          (jsChan 6 (([10, 20, 30, 40] : List Nat).getD (0+1) 0) 100
            (([10, 20, 30, 40] : List Nat).getD (0+3) 0)
            (jsOutA 100 (([10, 20, 30, 40] : List Nat).getD (0+3) 0)))
          (jsChan 7 (([10, 20, 30, 40] : List Nat).getD (0+2) 0) 100
            (([10, 20, 30, 40] : List Nat).getD (0+3) 0)
            (jsOutA 100 (([10, 20, 30, 40] : List Nat).getD (0+3) 0)))
          (jsAlpha 100 (([10, 20, 30, 40] : List Nat).getD (0+3) 0)) :=
  C10_guard_always_holds [10, 20, 30, 40] 0 5 6 7 100 (by decide) (by decide) (by decide)

end Webp
